import Mathlib

/-!
# finit: process execution core (`exec.c`)

A shallow embedding of `run`, `run_interactive`, `run_getty` and `run_parts`
from `exec.c`.

* C strings are lists of bytes (`Nat`); a heap block is the list of its bytes
  and a `char *` into it is an offset, `none` standing for `NULL`.
* A read or write outside the block, or through `NULL - 1`, is undefined
  behaviour in C; the embedding returns `none` for it.
* System calls whose result the program cannot control (fork, exec, waitpid,
  file existence, terminal input) are answered by an explicit world value.
-/

namespace Finit

/-! ## Bytes, strings and pointers -/

/-- The constant `NUM_ARGS` of `exec.c`. -/
def NUM_ARGS : Nat := 16

/-- A `char *`: an offset into the working copy, or `NULL`. -/
abbrev Ptr := Option Nat

/-- Bytes of a string literal. -/
def bytes (s : String) : List Nat := s.toList.map Char.toNat

/-- The delimiter set of the tokenizer, the C literal for tab and space. -/
def WS : List Nat := [9, 32]

/-- The heap block `strdup` returns: the bytes of the C string at its argument
(everything before the first NUL) followed by the terminating NUL. -/
def strdup (s : List Nat) : List Nat := s.takeWhile (fun b => b != 0) ++ [0]

/-- Length of the initial segment of a block that holds neither NUL nor a byte
of `delim`, as the scan of `strsep` computes it; `none` when the scan leaves
the block. -/
def scan (delim : List Nat) : List Nat → Option Nat
  | [] => none
  | c :: cs => if c = 0 ∨ c ∈ delim then some 0 else (scan delim cs).map (· + 1)

/-- Store one byte through a pointer; `none` when the offset is outside the
block. -/
def store (buf : List Nat) (p v : Nat) : Option (List Nat) :=
  if p < buf.length then some (buf.set p v) else none

/-- C library `strsep(&arg, delim)` on the block `buf`: yields the new block,
the new value of `arg` and the returned token pointer. With `arg = NULL` it
returns `NULL` and changes nothing. Otherwise the first delimiter at or after
`arg` is overwritten with NUL and `arg` moves just past it; when the string
ends before any delimiter, `arg` becomes `NULL`. -/
def strsep (buf : List Nat) (arg : Ptr) (delim : List Nat) :
    Option (List Nat × Ptr × Ptr) :=
  match arg with
  | none => some (buf, none, none)
  | some p =>
    match scan delim (buf.drop p) with
    | none => none
    | some n =>
      match buf[p + n]? with
      | none => none
      | some c =>
        if c = 0 then some (buf, none, some p)
        else some (buf.set (p + n) 0, some (p + n + 1), some p)

/-- The `while (arg && i < NUM_ARGS)` loop of `run`. `room` is
`NUM_ARGS - i`; every iteration stores one pointer, so `i` grows by one and
`room` shrinks by one. The result is the block, the final `arg` and the
pointers stored in `args[0..i)`. -/
def splitLoop : Nat → List Nat → Ptr → List Ptr → Option (List Nat × Ptr × List Ptr)
  | 0, buf, arg, args => some (buf, arg, args)
  | _ + 1, buf, none, args => some (buf, none, args)
  | room + 1, buf, some a, args =>
    match buf[a]? with
    | none => none
    | some c =>
      if c = 39 ∨ c = 34 then
        -- delim[0] = arg[0]; args[i++] = arg++; strsep(&arg, delim);
        match strsep buf (some (a + 1)) [c] with
        | none => none
        | some (_, none, _) => none
        | some (buf1, some e, _) =>
          -- p = arg - 1; *p = *delim; *arg++ = 0;
          match store buf1 (e - 1) c with
          | none => none
          | some buf2 =>
            match store buf2 e 0 with
            | none => none
            | some buf3 => splitLoop room buf3 (some (e + 1)) (args ++ [some a])
      else
        match strsep buf (some a) WS with
        | none => none
        | some (buf1, arg1, tok) => splitLoop room buf1 arg1 (args ++ [tok])

/-- State of `run` after line 95: the working copy, the rest pointer `arg`,
the index `i` and the array `args[0..i]`. -/
structure Split where
  buf : List Nat
  arg : Ptr
  i : Nat
  args : List Ptr
  deriving DecidableEq

/-- Lines 72-95 of `run`: copy the command line, take the first token with
`strsep`, run the loop, and terminate the vector with `args[i] = NULL`. -/
def split (cmd : List Nat) : Option Split :=
  match strsep (strdup cmd) (some 0) WS with
  | none => none
  | some (buf1, arg1, tok) =>
    match splitLoop (NUM_ARGS - 1) buf1 arg1 [tok] with
    | none => none
    | some (buf, arg, args) => some ⟨buf, arg, args.length, args ++ [none]⟩

/-- The C string a pointer designates: the bytes from the offset up to the
first NUL; `none` when no NUL follows inside the block. -/
def cstrFrom : List Nat → Option (List Nat)
  | [] => none
  | c :: cs => if c = 0 then some [] else (cstrFrom cs).map (c :: ·)

/-- The C string at offset `p` of block `buf`. -/
def cstrAt (buf : List Nat) (p : Nat) : Option (List Nat) :=
  if p < buf.length then cstrFrom (buf.drop p) else none

/-- The strings of a NULL-terminated vector, as `exec` reads it: the entries
before the first `NULL`. -/
def argvOf (buf : List Nat) : List Ptr → Option (List (List Nat))
  | [] => none
  | none :: _ => some []
  | some p :: ps =>
    match cstrAt buf p, argvOf buf ps with
    | some s, some ss => some (s :: ss)
    | _, _ => none

/-- The tokens `run` computes for a command line: the strings of `args`
before the terminator. -/
def tokens (cmd : List Nat) : Option (List (List Nat)) :=
  match split cmd with
  | none => none
  | some s => argvOf s.buf s.args

/-! ## Shapes of command lines

Used to state what the tokenizer yields: a command line is a first word and
then tokens, each with the byte that stands before it. -/

/-- A token after the first word: a plain word, or a quote character, a body
and the same quote character again. -/
inductive Tok
  | word (text : List Nat)
  | quoted (q : Nat) (body : List Nat)
  deriving DecidableEq

/-- The bytes a token occupies in the command line, quote characters
included. -/
def Tok.text : Tok → List Nat
  | Tok.word t => t
  | Tok.quoted q body => q :: (body ++ [q])

/-- A first word: no NUL, no tab, no space. -/
def wordOk (t : List Nat) : Bool := t.all (fun b => b != 0 && b != 9 && b != 32)

/-- A word has no NUL, tab or space and does not begin with a quote
character; a quoted token begins with a quote character and its body has
neither NUL nor that quote character. -/
def Tok.ok : Tok → Bool
  | Tok.word t => wordOk t && t.head? != some 39 && t.head? != some 34
  | Tok.quoted q body => (q == 39 || q == 34) && body.all (fun b => b != 0 && b != q)

/-- The byte after a token: a tab or space after a word, any byte but NUL
after the closing quote of a quoted token. -/
def Tok.sepOk : Tok → Nat → Bool
  | Tok.word _, s => s == 9 || s == 32
  | Tok.quoted _ _, s => s != 0

/-- Well-formedness of what follows the token `prev`: every token is
well-formed, stands after a fitting byte, and the line does not end with a
quoted token. -/
def follows : Tok → List (Nat × Tok) → Bool
  | Tok.word _, [] => true
  | Tok.quoted _ _, [] => false
  | prev, (s, T) :: rest => prev.sepOk s && T.ok && follows T rest

/-- The bytes of a list of tokens, each after its preceding byte. -/
def render : List (Nat × Tok) → List Nat
  | [] => []
  | (s, T) :: rest => s :: (T.text ++ render rest)

/-- A first word and further words, each after its separator. -/
def joinWords (t0 : List Nat) : List (Nat × List Nat) → List Nat
  | [] => t0
  | (s, t) :: rest => t0 ++ s :: joinWords t rest

/-- A tab or a space. -/
def isSep (b : Nat) : Bool := b == 9 || b == 32

/-- A command line cut at every tab and space: the bytes before the first
separator, and then each separator with the bytes between it and the next
one. Nothing is merged: two separators in a row enclose an empty word. -/
def cutAtSeps : List Nat → List Nat × List (Nat × List Nat)
  | [] => ([], [])
  | c :: cs =>
    if isSep c then ([], (c, (cutAtSeps cs).1) :: (cutAtSeps cs).2)
    else (c :: (cutAtSeps cs).1, (cutAtSeps cs).2)

/-- The fields of a command line in the words of the specification: one more
than there are tabs and spaces, empty ones included. -/
def fields (cmd : List Nat) : List (List Nat) :=
  (cutAtSeps cmd).1 :: (cutAtSeps cmd).2.map Prod.snd

/-- Strings laid out one after the other, each with its terminating NUL. -/
def cooked : List (List Nat) → List Nat
  | [] => []
  | t :: ts => t ++ 0 :: cooked ts

/-- Offsets of the strings of `cooked` when the first one starts at `base`. -/
def offsets (base : Nat) : List (List Nat) → List Ptr
  | [] => []
  | t :: ts => some base :: offsets (base + t.length + 1) ts

/-! ## Processes, events and the world -/

/-- Values `run` and `run_interactive` assign to `errno`. -/
inductive Errno
  | EOVERFLOW
  | EINVAL
  deriving DecidableEq

/-- What a duplicated child does between `fork` and the end of its own code. -/
inductive Act
  | sigDefault                  -- every signal 1..NSIG-1 reset with DFLSIG
  | nullStdio (opened : Bool)   -- fopen of /dev/null and, when it opened, dup2 onto 0, 1, 2
  | sigUnblock
  | exec (file : List Nat) (argv : List (List Nat))   -- execvp / execv
  | exit (code : Nat)           -- exit / _exit
  deriving DecidableEq

/-- Events of the calling process. A successful `fork` is recorded with the
actions of the child it creates. -/
inductive Ev
  | spawn (pid : Nat) (child : List Act)
  | forkFailed
  | waitpid (pid : Int)
  | tooLong                     -- the message of the overflow branch
  | desc                        -- print_desc
  | redirect                    -- stdout and stderr saved with dup and pointed at the sink
  | restore (out err : Bool)    -- which of the saved descriptors were put back
  | result (status : Int)       -- print_result
  | stderr (data : List Nat)    -- bytes an fwrite put on the error stream
  | fclose
  deriving DecidableEq

/-- Outcome of a call in the calling process. -/
structure Result where
  trace : List Ev
  ret : Int
  errno : Option Errno
  deriving DecidableEq

/-- Answers of the system to one call of `run`. -/
structure World where
  strdupOk : Bool
  /-- Result of `fork`: `none` when it returns -1, else the pid the parent sees. -/
  fork : Option Nat
  fopenOk : Bool
  /-- Whether `execvp` replaces the image of the child. -/
  execOk : Bool
  /-- Result of `waitpid`: `none` when it returns -1, else the status it stored. -/
  wait : Option Nat

/-! ## Wait status -/

/-- Function `complete`: the status of `waitpid`, or -1 when `waitpid` failed. -/
def complete (wait : Option Nat) : Int :=
  match wait with
  | none => -1
  | some status => (status : Int)

/-- C library `WEXITSTATUS`: `(status & 0xff00) >> 8`. -/
def WEXITSTATUS (status : Nat) : Nat := (status / 256) % 256

/-- C library `WTERMSIG`: `status & 0x7f`. -/
def WTERMSIG (status : Nat) : Nat := status % 128

/-- C library `WIFEXITED`: `WTERMSIG(status) == 0`. -/
def WIFEXITED (status : Nat) : Bool := WTERMSIG status == 0

/-- C library `WIFSIGNALED`: `((signed char) ((status & 0x7f) + 1) >> 1) > 0`. -/
def WIFSIGNALED (status : Nat) : Bool :=
  let x : Int := ((status % 128 + 1 : Nat) : Int)
  let sc : Int := if 128 ≤ x then x - 256 else x
  decide (0 < sc / 2)

/-- Lines 145-158 of `run`: the result computed from a wait status. -/
def exitResult (status : Nat) : Nat :=
  let result := WEXITSTATUS status
  if WIFEXITED status then result
  else if WIFSIGNALED status then (if result = 0 then 1 else result)
  else result

/-! ## `run` -/

/-- The child of `run`: lines 109-131. -/
def runChild (w : World) (file : List Nat) (argv : List (List Nat)) : List Act :=
  [Act.sigDefault, Act.nullStdio w.fopenOk, Act.sigUnblock, Act.exec file argv]
    ++ (if w.execOk then [] else [Act.exit 1])

/-- Function `run`. `none` is undefined behaviour of the tokenizer. -/
def run (w : World) (cmd : List Nat) : Option Result :=
  if w.strdupOk then
    match split cmd with
    | none => none
    | some s =>
      if s.i = NUM_ARGS ∧ (s.args.getD s.i none).isSome then
        some ⟨[Ev.tooLong], 1, some Errno.EOVERFLOW⟩
      else
        match w.fork with
        | none => some ⟨[Ev.forkFailed], -1, none⟩
        | some pid =>
          match argvOf s.buf s.args with
          | none => none
          | some [] => none
          | some (file :: rest) =>
            let status := complete w.wait
            let evs := [Ev.spawn pid (runChild w file (file :: rest)), Ev.waitpid pid]
            if status = -1 then some ⟨evs, 1, none⟩
            else some ⟨evs, (exitResult status.toNat : Nat), none⟩
  else some ⟨[], 1, none⟩

/-! ## `run_interactive` -/

/-- C library `fwrite(ptr, size, nmemb, stream)` when the stream accepts at
most `cap` more bytes: the bytes written and the returned count of complete
items (zero when `size` or `nmemb` is zero). -/
def fwrite (data : List Nat) (size nmemb cap : Nat) : List Nat × Nat :=
  let n := min (size * nmemb) cap
  (data.take n, if size = 0 then 0 else n / size)

/-- The replay loop, lines 213-216: `fread` takes up to `lineSize` bytes of
what is left of the sink, `fwrite(line, len, sizeof(char), stderr)` writes
them, and the loop goes on while `len > 0 && written == len`. `wr k` is the
number of bytes the stream accepts in the `k`-th write. Yields the chunks put
on the error stream; `none` when the fuel runs out. -/
def replay (lineSize : Nat) (wr : Nat → Nat) :
    Nat → List Nat → Nat → Option (List (List Nat))
  | 0, _, _ => none
  | fuel + 1, rest, k =>
    let line := rest.take lineSize
    let len := line.length
    let (sent, written) := fwrite line len 1 (wr k)
    if 0 < len ∧ written = len then
      (replay lineSize wr fuel (rest.drop lineSize) (k + 1)).map (sent :: ·)
    else some [sent]

/-- The bytes the replay loop puts on the error stream for a sink. -/
def replayed (lineSize : Nat) (wr : Nat → Nat) (sink : List Nat) : Option (List Nat) :=
  (replay lineSize wr (sink.length + 1) sink 0).map List.flatten

/-- Answers of the system to one call of `run_interactive`, and the globals
it reads. `lineSize` is the constant `LINE_SIZE`. -/
structure IWorld where
  lineSize : Nat
  verbose : Bool
  debug : Bool
  tempfileOk : Bool
  dupOut : Int
  dupErr : Int
  /-- Content of the sink once `run` has returned. -/
  sink : List Nat
  wr : Nat → Nat

/-- Function `run_interactive`. -/
def run_interactive (iw : IWorld) (w : World) (cmd : Option (List Nat)) (fmt : Bool) :
    Option Result :=
  match cmd with
  | none => some ⟨[], 1, some Errno.EINVAL⟩
  | some c =>
    let capture := iw.tempfileOk && !iw.debug
    let narrate := iw.verbose && fmt
    match run w c with
    | none => none
    | some r =>
      match (if capture then replay iw.lineSize iw.wr (iw.sink.length + 1) iw.sink 0
             else some []) with
      | none => none
      | some chunks =>
        some ⟨(if narrate then [Ev.desc] else [])
            ++ (if capture then [Ev.redirect] else [])
            ++ r.trace
            ++ (if capture then [Ev.restore (decide (0 ≤ iw.dupOut)) (decide (0 ≤ iw.dupErr))] else [])
            ++ (if narrate then [Ev.result r.ret] else [])
            ++ chunks.map Ev.stderr
            ++ (if iw.tempfileOk then [Ev.fclose] else []),
          r.ret, r.errno⟩

/-! ## `run_getty` -/

/-- Control points of the process forked by `run_getty`. -/
inductive Pc
  | init        -- line 230, before the console set-up
  | cond        -- the test `!fexist(SYNC_SHUTDOWN)` of line 260
  | idle        -- the first `fexist(SYNC_STOPPED)`, line 263
  | prompt      -- the `write` of line 269
  | reading     -- the `read` loop of line 270
  | recheck     -- the second `fexist(SYNC_STOPPED)`, line 273
  | activate    -- `execv(cmd, args)`, line 276
  | leave       -- lines 279-282
  | done (code : Nat)   -- the process has called `exit(code)`
  | image       -- the image has been replaced by `cmd`
  deriving DecidableEq

/-- Actions of the process forked by `run_getty`. -/
inductive GEv
  | vhangup
  | closeStdio
  | openConsole (fd : Int)
  | dupConsole
  | setName
  | sigUnblock
  | setsid
  | ioctl (ok : Bool)
  | sleep (seconds : Nat)
  | prompt
  | read (got : Option Nat)
  | execv (ok : Bool)
  | close
  | exit (code : Nat)
  deriving DecidableEq

/-- The history `run_getty` runs against, indexed by the step at which the
process asks. -/
structure GWorld where
  /-- The argument `console`. -/
  console : Bool
  /-- Result of `open(CONSOLE, O_RDWR)`. -/
  openFd : Int
  ioctlOk : Bool
  /-- Whether the file `SYNC_SHUTDOWN` exists. -/
  shutdown : Nat → Bool
  /-- Whether the file `SYNC_STOPPED` exists. -/
  stopped : Nat → Bool
  /-- The byte a one-byte `read` of the terminal delivers, `none` when `read`
  does not return 1. -/
  input : Nat → Option Nat
  /-- Whether `execv` replaces the image. -/
  execOk : Nat → Bool

/-- A moment of the forked process: control point and step count. -/
structure GState where
  pc : Pc
  tick : Nat
  deriving DecidableEq

/-- One step of the process forked by `run_getty`: the actions it performs
and the state it reaches. The states `done` and `image` have no successor. -/
def gettyStep (w : GWorld) (s : GState) : List GEv × GState :=
  let t := s.tick
  match s.pc with
  | Pc.init =>
    let tail := [GEv.sigUnblock, GEv.setsid, GEv.ioctl w.ioctlOk]
    if w.console then
      if w.openFd ≠ 0 then
        ([GEv.vhangup, GEv.closeStdio, GEv.openConsole w.openFd, GEv.exit 1], ⟨Pc.done 1, t + 1⟩)
      else
        ([GEv.vhangup, GEv.closeStdio, GEv.openConsole w.openFd, GEv.dupConsole, GEv.setName]
          ++ tail, ⟨Pc.cond, t + 1⟩)
    else (tail, ⟨Pc.cond, t + 1⟩)
  | Pc.cond => if w.shutdown t then ([], ⟨Pc.leave, t + 1⟩) else ([], ⟨Pc.idle, t + 1⟩)
  | Pc.idle =>
    if w.stopped t then ([GEv.sleep 1], ⟨Pc.cond, t + 1⟩)
    else if w.console then ([], ⟨Pc.prompt, t + 1⟩)
    else ([], ⟨Pc.recheck, t + 1⟩)
  | Pc.prompt => ([GEv.prompt], ⟨Pc.reading, t + 1⟩)
  | Pc.reading =>
    match w.input t with
    | some c =>
      if c ≠ 10 then ([GEv.read (some c)], ⟨Pc.reading, t + 1⟩)
      else ([GEv.read (some c)], ⟨Pc.recheck, t + 1⟩)
    | none => ([GEv.read none], ⟨Pc.recheck, t + 1⟩)
  | Pc.recheck => if w.stopped t then ([], ⟨Pc.cond, t + 1⟩) else ([], ⟨Pc.activate, t + 1⟩)
  | Pc.activate =>
    if w.execOk t then ([GEv.execv true], ⟨Pc.image, t + 1⟩)
    else ([GEv.execv false], ⟨Pc.cond, t + 1⟩)
  | Pc.leave =>
    if w.console then ([GEv.close, GEv.exit 0], ⟨Pc.done 0, t + 1⟩)
    else ([GEv.exit 0], ⟨Pc.done 0, t + 1⟩)
  | Pc.done c => ([], ⟨Pc.done c, t⟩)
  | Pc.image => ([], ⟨Pc.image, t⟩)

/-- The actions performed and the state reached by `n` steps. -/
def gettyRun (w : GWorld) : Nat → GState → List GEv × GState
  | 0, s => ([], s)
  | n + 1, s =>
    let r := gettyStep w s
    let r2 := gettyRun w n r.2
    (r.1 ++ r2.1, r2.2)

/-! ## `run_parts` -/

/-- C library `strcmp`, as a sign: bytes compare as unsigned values and a
proper prefix sorts first. -/
def strcmp : List Nat → List Nat → Int
  | [], [] => 0
  | [], _ :: _ => -1
  | _ :: _, [] => 1
  | a :: as, b :: bs => if a < b then -1 else if b < a then 1 else strcmp as bs

/-- Order `alphasort` sorts by. It compares the names with `strcoll`; finit
never calls `setlocale`, so that is `strcmp`. -/
def alphasort (a b : List Nat) : Prop := strcmp a b ≤ 0

instance alphasortDecidable : DecidableRel alphasort :=
  fun a b => inferInstanceAs (Decidable (strcmp a b ≤ 0))

/-- C library `scandir(dir, &e, NULL, alphasort)` on a directory whose entries
come in the order `listing`: all of them, sorted; `none` when the directory
cannot be read. -/
def scandir (listing : Option (List (List Nat))) : Option (List (List Nat)) :=
  listing.map (List.insertionSort alphasort)

/-- Modelled from the spec: the macro `S_ISEXEC` of libite, the owner execute
bit `S_IXUSR` (0100) of a mode. -/
def S_ISEXEC (mode : Nat) : Bool := (mode / 64) % 2 == 1

/-- C library `S_ISDIR`: `(mode & S_IFMT) == S_IFDIR`. -/
def S_ISDIR (mode : Nat) : Bool := (mode / 4096) % 16 == 4

/-- C library `isdigit` in the C locale. -/
def isdigit (c : Nat) : Bool := decide (48 ≤ c) && decide (c ≤ 57)

/-- Answers of the system to one call of `run_parts`. `cmdSize` is the
constant `CMD_SIZE`. -/
structure PWorld where
  cmdSize : Nat
  /-- Entries of a directory as the system lists them, `none` when it cannot. -/
  readdir : List Nat → Option (List (List Nat))
  /-- Result of `fmode`: the mode of a path. -/
  fmode : List Nat → Nat
  /-- Result of the `k`-th `fork`: `none` when it returns -1. -/
  fork : Nat → Option Nat
  /-- Whether `execv` of a path replaces the image. -/
  execOk : List Nat → Bool

/-- The buffer `path` after `snprintf(path, sizeof(path), "%s/%s", dir, name)`:
at most `CMD_SIZE - 1` bytes are kept. -/
def partPath (cmdSize : Nat) (dir name : List Nat) : List Nat :=
  (dir ++ 47 :: name).take (cmdSize - 1)

/-- Lines 315-330 of `run_parts`: the vector `args`, entries as strings and
`none` for `NULL`. -/
def partArgs (path name : List Nat) (cmd : Option (List Nat)) : List (Option (List Nat)) :=
  match cmd with
  | none =>
    if name.getD 0 0 = 83 ∧ isdigit (name.getD 1 0) then [some path, some (bytes "start"), none]
    else if name.getD 0 0 = 75 ∧ isdigit (name.getD 1 0) then [some path, some (bytes "stop"), none]
    else [some path, none]
  | some c => [some path, some c, none]

/-- The strings of a vector before its first `NULL`. -/
def argvStrings : List (Option (List Nat)) → List (List Nat)
  | some s :: rest => s :: argvStrings rest
  | _ => []

/-- The child of `run_parts`: lines 333-338. -/
def partChild (w : PWorld) (path : List Nat) (args : List (Option (List Nat))) : List Act :=
  [Act.sigUnblock, Act.exec path (argvStrings args)]
    ++ (if w.execOk path then [] else [Act.exit 0])

/-- The `for` loop of `run_parts` over the sorted entries; `k` counts the
calls of `fork` so far. -/
def partsLoop (w : PWorld) (dir : List Nat) (cmd : Option (List Nat)) :
    List (List Nat) → Nat → List Ev
  | [], _ => []
  | name :: rest, k =>
    let path := partPath w.cmdSize dir name
    let mode := w.fmode path
    if !S_ISEXEC mode || S_ISDIR mode then partsLoop w dir cmd rest k
    else
      match w.fork k with
      | some pid =>
        Ev.spawn pid (partChild w path (partArgs path name cmd)) :: Ev.waitpid pid
          :: partsLoop w dir cmd rest (k + 1)
      | none => Ev.forkFailed :: Ev.waitpid (-1) :: partsLoop w dir cmd rest (k + 1)

/-- Function `run_parts`. -/
def run_parts (w : PWorld) (dir : List Nat) (cmd : Option (List Nat)) : Result :=
  match scandir (w.readdir dir) with
  | none => ⟨[], -1, none⟩
  | some e => ⟨partsLoop w dir cmd e 0, 0, none⟩

/-! ## Reading a trace, and the vector the specification describes -/

/-- The `exec` calls among the actions of a child. -/
def actExecs : List Act → List (List Nat × List (List Nat))
  | [] => []
  | Act.exec file argv :: rest => (file, argv) :: actExecs rest
  | _ :: rest => actExecs rest

/-- The `exec` calls of the children a trace spawned, in order. -/
def execsOf : List Ev → List (List Nat × List (List Nat))
  | [] => []
  | Ev.spawn _ child :: rest => actExecs child ++ execsOf rest
  | _ :: rest => execsOf rest

/-- The test of line 310 on an entry: executable and not a directory. -/
def runnable (w : PWorld) (dir name : List Nat) : Bool :=
  S_ISEXEC (w.fmode (partPath w.cmdSize dir name))
    && !S_ISDIR (w.fmode (partPath w.cmdSize dir name))

/-- The argument vector in the words of the specification: the path and the
forced argument when one is supplied; otherwise the path and `start` for a
name that begins with `S` and a digit, the path and `stop` for a name that
begins with `K` and a digit, and the path alone for any other name. -/
def expectedArgv (path name : List Nat) (forced : Option (List Nat)) : List (List Nat) :=
  match forced, name with
  | some f, _ => [path, f]
  | none, 83 :: d :: _ => if 48 ≤ d ∧ d ≤ 57 then [path, bytes "start"] else [path]
  | none, 75 :: d :: _ => if 48 ≤ d ∧ d ≤ 57 then [path, bytes "stop"] else [path]
  | none, _ => [path]

/-! ## Sample inputs -/

/-- A command line of sixteen one-letter words. -/
def sixteenWords : List Nat := bytes "a b c d e f g h i j k l m n o p"

/-- The sixteen words of `sixteenWords`. -/
def sixteenTokens : List (List Nat) :=
  [bytes "a", bytes "b", bytes "c", bytes "d", bytes "e", bytes "f", bytes "g", bytes "h",
   bytes "i", bytes "j", bytes "k", bytes "l", bytes "m", bytes "n", bytes "o", bytes "p"]

/-- A world for `run_parts`: `CMD_SIZE` 256, a directory that lists the one
entry `S01a`, every path an executable regular file (mode 0100755), every
`fork` returning pid 7, and every `execv` failing. -/
def failingExecWorld : PWorld :=
  ⟨256, fun _ => some [bytes "S01a"], fun _ => 33261, fun _ => some 7, fun _ => false⟩

/-- The entries of the sample directory, in an order a listing may have. -/
def sysvListing : List (List Nat) :=
  [bytes ".", bytes "..", bytes "S01first", bytes "S02second", bytes "readme.txt",
   bytes "K01third"]

/-- A world for `run_parts` on the sample directory: `CMD_SIZE` 256,
`readme.txt` a plain file without execute bit (mode 0100644), `.` and `..`
directories (mode 040755), everything else an executable regular file
(mode 0100755); the `k`-th `fork` returns pid `k + 2` and `execv` succeeds. -/
def sysvWorld : PWorld :=
  ⟨256, fun _ => some sysvListing,
   fun p => if p = bytes "/etc/rc.d/readme.txt" then 33188
            else if p = bytes "/etc/rc.d/." ∨ p = bytes "/etc/rc.d/.." then 16877
            else 33261,
   fun k => some (k + 2), fun _ => true⟩

/-- A directory path of 300 bytes: thirty components of nine bytes each. -/
def deepDir : List Nat := (List.replicate 30 (bytes "/aaaaaaaaa")).flatten

/-- The first 255 bytes of `deepDir`, a slash and `S01a`: the first
twenty-five components of `deepDir` and then the four-byte name `aaaa`. -/
def deepCut : List Nat := (List.replicate 25 (bytes "/aaaaaaaaa")).flatten ++ bytes "/aaaa"

/-- A world for `run_parts` with `CMD_SIZE` 256 in which a directory lists
the one entry `S01a`; the entry `S01a` of `deepDir` and the file `deepCut` are
executable regular files (mode 0100755) and no other path exists (`fmode`
gives 0); every `fork` returns pid 7 and `execv` succeeds. -/
def deepDirWorld : PWorld :=
  ⟨256, fun _ => some [bytes "S01a"],
   fun p => if p = deepDir ++ 47 :: bytes "S01a" ∨ p = deepCut then 33261 else 0,
   fun _ => some 7, fun _ => true⟩

/-- The world `deepDirWorld` without the file `deepCut`: only the entry
`S01a` of `deepDir` exists. -/
def deepDirAloneWorld : PWorld :=
  ⟨256, fun _ => some [bytes "S01a"],
   fun p => if p = deepDir ++ 47 :: bytes "S01a" then 33261 else 0,
   fun _ => some 7, fun _ => true⟩

/-! ## Lemmas on the tokenizer -/

set_option linter.unnecessarySimpa false

theorem strsep_tok {buf : List Nat} {p : Nat} {delim : List Nat} {b : List Nat} {a t : Ptr}
    (h : strsep buf (some p) delim = some (b, a, t)) : t = some p := by
  unfold strsep at h
  simp only at h
  split at h
  · simp at h
  · split at h
    · simp at h
    · split at h <;> simp at h <;> simp [h]

theorem splitLoop_prefix : ∀ (room : Nat) (buf : List Nat) (arg : Ptr) (args : List Ptr)
    (b : List Nat) (a : Ptr) (r : List Ptr),
    splitLoop room buf arg args = some (b, a, r) →
    ∃ more, r = args ++ more ∧ more.length ≤ room ∧ ∀ x ∈ more, x ≠ none := by
  intro room
  induction room with
  | zero =>
    intro buf arg args b a r h
    simp [splitLoop] at h
    exact ⟨[], by simp [h]⟩
  | succ n ih =>
    intro buf arg args b a r h
    cases arg with
    | none =>
      simp [splitLoop] at h
      exact ⟨[], by simp [h]⟩
    | some p =>
      rw [splitLoop] at h
      split at h
      · simp at h
      · split at h
        · split at h
          · simp at h
          · simp at h
          · split at h
            · simp at h
            · split at h
              · simp at h
              · obtain ⟨more, h1, h2, h3⟩ := ih _ _ _ _ _ _ h
                refine ⟨some p :: more, by simp [h1], by simp; omega, ?_⟩
                intro x hx
                simp at hx
                rcases hx with hx | hx
                · simp [hx]
                · exact h3 x hx
        · split at h
          · simp at h
          · rename_i buf1 arg1 tok hs
            have ht := strsep_tok hs
            obtain ⟨more, h1, h2, h3⟩ := ih _ _ _ _ _ _ h
            refine ⟨tok :: more, by simp [h1], by simp; omega, ?_⟩
            intro x hx
            simp at hx
            rcases hx with hx | hx
            · simp [hx, ht]
            · exact h3 x hx

theorem scan_stop (delim t : List Nat) (c : Nat) (r : List Nat)
    (ht : ∀ b ∈ t, b ≠ 0 ∧ b ∉ delim) (hc : c = 0 ∨ c ∈ delim) :
    scan delim (t ++ c :: r) = some t.length := by
  induction t with
  | nil => simp [scan, hc]
  | cons b t ih =>
    have hb := ht b (by simp)
    have := ih (fun x hx => ht x (by simp [hx]))
    simp [scan, hb.1, hb.2, this]

theorem getElem?_mid (L : List Nat) (c : Nat) (r : List Nat) :
    (L ++ c :: r)[L.length]? = some c := by
  induction L with
  | nil => simp
  | cons a L ih => simpa using ih

theorem set_mid (L : List Nat) (c v : Nat) (r : List Nat) :
    (L ++ c :: r).set L.length v = L ++ v :: r := by
  induction L with
  | nil => simp
  | cons a L ih => simp [ih]

theorem store_mid (L : List Nat) (c v : Nat) (r : List Nat) :
    store (L ++ c :: r) L.length v = some (L ++ v :: r) := by
  simp [store, set_mid]

theorem strsep_found (L t : List Nat) (c : Nat) (r delim : List Nat)
    (ht : ∀ b ∈ t, b ≠ 0 ∧ b ∉ delim) (hc : c ∈ delim) (h0 : c ≠ 0) :
    strsep (L ++ (t ++ c :: r)) (some L.length) delim
      = some (L ++ (t ++ 0 :: r), some (L.length + t.length + 1), some L.length) := by
  have h1 : scan delim ((L ++ (t ++ c :: r)).drop L.length) = some t.length := by
    rw [List.drop_left]; exact scan_stop delim t c r ht (Or.inr hc)
  have h2 : (L ++ (t ++ c :: r))[L.length + t.length]? = some c := by
    have := getElem?_mid (L ++ t) c r
    simpa using this
  have h3 : (L ++ (t ++ c :: r)).set (L.length + t.length) 0 = L ++ (t ++ 0 :: r) := by
    have := set_mid (L ++ t) c 0 r
    simpa using this
  simp only [strsep, h1, h2, if_neg h0, h3]

theorem strsep_end (L t : List Nat) (r delim : List Nat)
    (ht : ∀ b ∈ t, b ≠ 0 ∧ b ∉ delim) :
    strsep (L ++ (t ++ 0 :: r)) (some L.length) delim
      = some (L ++ (t ++ 0 :: r), none, some L.length) := by
  have h1 : scan delim ((L ++ (t ++ 0 :: r)).drop L.length) = some t.length := by
    rw [List.drop_left]; exact scan_stop delim t 0 r ht (Or.inl rfl)
  have h2 : (L ++ (t ++ 0 :: r))[L.length + t.length]? = some 0 := by
    have := getElem?_mid (L ++ t) 0 r
    simpa using this
  simp only [strsep, h1, h2, if_true]

theorem splitLoop_none (room : Nat) (buf : List Nat) (args : List Ptr) :
    splitLoop room buf none args = some (buf, none, args) := by
  cases room <;> simp [splitLoop]

theorem wordOk_iff (t : List Nat) : wordOk t = true ↔ ∀ b ∈ t, b ≠ 0 ∧ b ∉ WS := by
  simp [wordOk, WS, and_assoc]

theorem splitLoop_chain : ∀ (rest : List (Nat × Tok)) (T : Tok) (L : List Nat) (args : List Ptr)
    (room : Nat), T.ok = true → follows T rest = true → rest.length + 1 ≤ room →
    splitLoop room (L ++ (T.text ++ (render rest ++ [0]))) (some L.length) args
      = some (L ++ cooked (T.text :: rest.map (fun p => p.2.text)), none,
          args ++ offsets L.length (T.text :: rest.map (fun p => p.2.text))) := by
  intro rest
  induction rest with
  | nil =>
    intro T L args room hT hf hr
    obtain ⟨r, rfl⟩ : ∃ r, room = r + 1 := ⟨room - 1, by omega⟩
    cases T with
    | quoted q body => simp [follows] at hf
    | word t =>
      simp only [Tok.ok, Bool.and_eq_true, bne_iff_ne, ne_eq] at hT
      obtain ⟨⟨hw, h39⟩, h34⟩ := hT
      have hw' := (wordOk_iff t).1 hw
      have hhead : ∃ c, (L ++ (t ++ [0]))[L.length]? = some c ∧ c ≠ 39 ∧ c ≠ 34 := by
        cases t with
        | nil => exact ⟨0, by simpa using getElem?_mid L 0 [], by decide, by decide⟩
        | cons a t =>
          refine ⟨a, by simpa using getElem?_mid L a (t ++ [0]), ?_, ?_⟩
          · simpa using h39
          · simpa using h34
      obtain ⟨c, hc, hc39, hc34⟩ := hhead
      have hs := strsep_end L t [] WS hw'
      simp only [Tok.text, render, List.nil_append, List.map_nil, cooked, offsets]
      rw [splitLoop]
      simp only [hc, hc39, hc34, or_self, if_false, hs, splitLoop_none, List.append_nil]
  | cons p rest ih =>
    intro T L args room hT hf hr
    obtain ⟨s, T'⟩ := p
    obtain ⟨r, rfl⟩ : ∃ r, room = r + 1 := ⟨room - 1, by simp at hr; omega⟩
    have hf' : T.sepOk s = true ∧ T'.ok = true ∧ follows T' rest = true := by
      cases T <;> simpa [follows, and_assoc] using hf
    obtain ⟨hsep, hT', hfr⟩ := hf'
    have hr' : rest.length + 1 ≤ r := by simp at hr; omega
    cases T with
    | word t =>
      simp only [Tok.ok, Bool.and_eq_true, bne_iff_ne, ne_eq] at hT
      obtain ⟨⟨hw, h39⟩, h34⟩ := hT
      have hw' := (wordOk_iff t).1 hw
      have hsWS : s ∈ WS ∧ s ≠ 0 := by
        simp only [Tok.sepOk, Bool.or_eq_true, beq_iff_eq] at hsep
        rcases hsep with h | h <;> simp [h, WS]
      set R := T'.text ++ (render rest ++ [0]) with hR
      have hbuf : L ++ ((Tok.word t).text ++ (render ((s, T') :: rest) ++ [0]))
          = L ++ (t ++ s :: R) := by
        simp [Tok.text, render, hR]
      have hhead : ∃ c, (L ++ (t ++ s :: R))[L.length]? = some c ∧ c ≠ 39 ∧ c ≠ 34 := by
        cases t with
        | nil =>
          refine ⟨s, by simpa using getElem?_mid L s R, ?_, ?_⟩
          · intro h; rw [h] at hsWS; simp [WS] at hsWS
          · intro h; rw [h] at hsWS; simp [WS] at hsWS
        | cons a t =>
          refine ⟨a, by simpa using getElem?_mid L a (t ++ s :: R), ?_, ?_⟩
          · simpa using h39
          · simpa using h34
      obtain ⟨c, hc, hc39, hc34⟩ := hhead
      have hs := strsep_found L t s R WS hw' hsWS.1 hsWS.2
      have hnext := ih T' (L ++ (t ++ [0])) (args ++ [some L.length]) r hT' hfr hr'
      rw [hbuf, splitLoop]
      simp only [hc, hc39, hc34, or_self, if_false, hs]
      have e1 : L ++ (t ++ 0 :: R) = (L ++ (t ++ [0])) ++ R := by simp
      have e2 : L.length + t.length + 1 = (L ++ (t ++ [0])).length := by simp; omega
      rw [e1, e2, hR, hnext]
      simp [cooked, offsets, Tok.text, Nat.add_assoc]
    | quoted q body =>
      simp only [Tok.ok, Bool.and_eq_true, Bool.or_eq_true, beq_iff_eq, List.all_eq_true,
        bne_iff_ne, ne_eq] at hT
      obtain ⟨hq, hbody⟩ := hT
      have hs0 : s ≠ 0 := by simpa [Tok.sepOk] using hsep
      have hq0 : q ≠ 0 := by rcases hq with h | h <;> simp [h]
      set R := T'.text ++ (render rest ++ [0]) with hR
      have hbuf : L ++ ((Tok.quoted q body).text ++ (render ((s, T') :: rest) ++ [0]))
          = L ++ (q :: (body ++ q :: s :: R)) := by
        simp [Tok.text, render, hR]
      have hc : (L ++ (q :: (body ++ q :: s :: R)))[L.length]? = some q :=
        getElem?_mid L q _
      have hb' : ∀ b ∈ body, b ≠ 0 ∧ b ∉ [q] := by
        intro b hb; have := hbody b hb; simpa using this
      have hs := strsep_found (L ++ [q]) body q (s :: R) [q] hb' (by simp) hq0
      have e0 : L ++ (q :: (body ++ q :: s :: R)) = (L ++ [q]) ++ (body ++ q :: s :: R) := by simp
      have e0' : L.length + 1 = (L ++ [q]).length := by simp
      have hst1 : store ((L ++ [q]) ++ (body ++ 0 :: s :: R)) ((L ++ [q]).length + body.length + 1 - 1) q
          = some (((L ++ [q]) ++ body) ++ q :: s :: R) := by
        have h := store_mid ((L ++ [q]) ++ body) 0 q (s :: R)
        have e : (L ++ [q]).length + body.length + 1 - 1 = ((L ++ [q]) ++ body).length := by simp; omega
        rw [e]
        simpa using h
      have hst2 : store (((L ++ [q]) ++ body) ++ q :: s :: R) ((L ++ [q]).length + body.length + 1) 0
          = some ((((L ++ [q]) ++ body) ++ [q]) ++ 0 :: R) := by
        have h := store_mid ((((L ++ [q]) ++ body) ++ [q])) s 0 R
        have e : (L ++ [q]).length + body.length + 1 = (((L ++ [q]) ++ body) ++ [q]).length := by simp; omega
        rw [e]
        simpa using h
      have hnext := ih T' (L ++ (q :: (body ++ [q])) ++ [0]) (args ++ [some L.length]) r hT' hfr hr'
      rw [hbuf, splitLoop]
      simp only [hc]
      rw [if_pos hq, e0, e0', hs]
      simp only [hst1, hst2]
      have e1 : (((L ++ [q]) ++ body) ++ [q]) ++ 0 :: R = (L ++ (q :: (body ++ [q])) ++ [0]) ++ R := by
        simp
      have e2 : (L ++ [q]).length + body.length + 1 + 1 = (L ++ (q :: (body ++ [q])) ++ [0]).length := by
        simp; omega
      rw [e1, e2, hR, hnext]
      simp [cooked, offsets, Tok.text, Nat.add_assoc]

theorem cstrFrom_stop (t R : List Nat) (ht : ∀ b ∈ t, b ≠ 0) :
    cstrFrom (t ++ 0 :: R) = some t := by
  induction t with
  | nil => simp [cstrFrom]
  | cons a t ih =>
    have ha := ht a (by simp)
    have := ih (fun b hb => ht b (by simp [hb]))
    simp [cstrFrom, ha, this]

theorem cstrAt_stop (L t R : List Nat) (ht : ∀ b ∈ t, b ≠ 0) :
    cstrAt (L ++ (t ++ 0 :: R)) L.length = some t := by
  have h : L.length < (L ++ (t ++ 0 :: R)).length := by simp
  simp only [cstrAt, h, if_true, List.drop_left]
  exact cstrFrom_stop t R ht

theorem argvOf_cons (buf : List Nat) (p : Nat) (ps : List Ptr) :
    argvOf buf (some p :: ps)
      = match cstrAt buf p, argvOf buf ps with
        | some s, some ss => some (s :: ss)
        | _, _ => none := rfl

theorem offsets_length (base : Nat) (ts : List (List Nat)) :
    (offsets base ts).length = ts.length := by
  induction ts generalizing base with
  | nil => rfl
  | cons t ts ih => simp [offsets, ih]

theorem argvOf_cooked : ∀ (texts : List (List Nat)) (L : List Nat),
    (∀ t ∈ texts, ∀ b ∈ t, b ≠ 0) →
    argvOf (L ++ cooked texts) (offsets L.length texts ++ [none]) = some texts := by
  intro texts
  induction texts with
  | nil => intro L _; simp [offsets, argvOf]
  | cons t ts ih =>
    intro L h
    have h1 := cstrAt_stop L t (cooked ts) (h t (by simp))
    have h2 := ih (L ++ (t ++ [0])) (fun x hx => h x (by simp [hx]))
    have e1 : (L ++ (t ++ [0])) ++ cooked ts = L ++ (t ++ 0 :: cooked ts) := by simp
    have e2 : (L ++ (t ++ [0])).length = L.length + t.length + 1 := by simp; omega
    rw [e1, e2] at h2
    have e3 : offsets L.length (t :: ts) ++ [none]
        = some L.length :: (offsets (L.length + t.length + 1) ts ++ [none]) := rfl
    rw [e3, argvOf_cons]
    simp only [cooked, h1, h2]

theorem text_nonzero (T : Tok) (h : T.ok = true) : ∀ b ∈ T.text, b ≠ 0 := by
  cases T with
  | word t =>
    simp only [Tok.ok, Bool.and_eq_true] at h
    intro b hb
    exact ((wordOk_iff t).1 h.1.1 b hb).1
  | quoted q body =>
    simp only [Tok.ok, Bool.and_eq_true, Bool.or_eq_true, beq_iff_eq, List.all_eq_true,
      bne_iff_ne, ne_eq] at h
    intro b hb
    simp only [Tok.text, List.mem_cons, List.mem_append, List.mem_singleton,
      List.not_mem_nil, or_false] at hb
    rcases hb with hb | hb | hb
    · rcases h.1 with h | h <;> simp [hb, h]
    · exact (h.2 b hb).1
    · rcases h.1 with h | h <;> simp [hb, h]

theorem follows_nonzero : ∀ (rest : List (Nat × Tok)) (T : Tok), follows T rest = true →
    (∀ b ∈ render rest, b ≠ 0) ∧ ∀ t ∈ rest.map (fun p => p.2.text), ∀ b ∈ t, b ≠ 0 := by
  intro rest
  induction rest with
  | nil => intro T _; simp [render]
  | cons p rest ih =>
    intro T hf
    obtain ⟨s, T'⟩ := p
    have hf' : T.sepOk s = true ∧ T'.ok = true ∧ follows T' rest = true := by
      cases T <;> simpa [follows, and_assoc] using hf
    obtain ⟨hsep, hT', hfr⟩ := hf'
    have hs0 : s ≠ 0 := by
      cases T with
      | word t =>
        simp only [Tok.sepOk, Bool.or_eq_true, beq_iff_eq] at hsep
        rcases hsep with h | h <;> simp [h]
      | quoted q body => simpa [Tok.sepOk] using hsep
    obtain ⟨h1, h2⟩ := ih T' hfr
    have h3 := text_nonzero T' hT'
    constructor
    · intro b hb
      simp only [render, List.mem_cons, List.mem_append] at hb
      rcases hb with hb | hb | hb
      · rw [hb]; exact hs0
      · exact h3 b hb
      · exact h1 b hb
    · intro t ht
      simp only [List.map_cons, List.mem_cons] at ht
      rcases ht with ht | ht
      · rw [ht]; exact h3
      · exact h2 t ht

theorem strdup_clean (s : List Nat) (h : ∀ b ∈ s, b ≠ 0) : strdup s = s ++ [0] := by
  have : s.takeWhile (fun b => b != 0) = s := by
    rw [List.takeWhile_eq_self_iff]
    intro b hb
    simpa using h b hb
  simp [strdup, this]

/-- What lines 72-95 leave behind for a well-formed command line: every
separator of the copy replaced by NUL, `arg` at `NULL`, and one pointer per
token. -/
theorem split_line (t0 : List Nat) (items : List (Nat × Tok)) (h0 : wordOk t0 = true)
    (hf : follows (Tok.word t0) items = true) (hn : items.length + 1 ≤ NUM_ARGS) :
    split (t0 ++ render items)
      = some ⟨cooked (t0 :: items.map (fun p => p.2.text)), none, items.length + 1,
          offsets 0 (t0 :: items.map (fun p => p.2.text)) ++ [none]⟩ := by
  have hw := (wordOk_iff t0).1 h0
  have hnz := follows_nonzero items (Tok.word t0) hf
  have hdup : strdup (t0 ++ render items) = t0 ++ (render items ++ [0]) := by
    rw [strdup_clean]
    · simp
    · intro b hb
      rcases List.mem_append.1 hb with hb | hb
      · exact (hw b hb).1
      · exact hnz.1 b hb
  cases items with
  | nil =>
    have hs := strsep_end [] t0 [] WS hw
    simp only [List.nil_append, List.length_nil] at hs
    unfold split
    rw [hdup]
    simp only [render, List.nil_append, hs, splitLoop_none]
    simp [cooked, offsets]
  | cons p rest =>
    obtain ⟨s, T⟩ := p
    have hf' : (s = 9 ∨ s = 32) ∧ T.ok = true ∧ follows T rest = true := by
      simpa [follows, Tok.sepOk, and_assoc] using hf
    obtain ⟨hsep, hT, hfr⟩ := hf'
    have hsWS : s ∈ WS ∧ s ≠ 0 := by rcases hsep with h | h <;> simp [h, WS]
    have hs := strsep_found [] t0 s (T.text ++ (render rest ++ [0])) WS hw hsWS.1 hsWS.2
    simp only [List.nil_append, List.length_nil, Nat.zero_add] at hs
    have hr : rest.length + 1 ≤ NUM_ARGS - 1 := by
      simp only [List.length_cons, NUM_ARGS] at hn ⊢; omega
    have hl := splitLoop_chain rest T (t0 ++ [0]) [some 0] (NUM_ARGS - 1) hT hfr hr
    have e1 : t0 ++ 0 :: (T.text ++ (render rest ++ [0])) = (t0 ++ [0]) ++ (T.text ++ (render rest ++ [0])) := by
      simp
    have e2 : t0.length + 1 = (t0 ++ [0]).length := by simp
    have e3 : t0 ++ (render ((s, T) :: rest) ++ [0]) = t0 ++ s :: (T.text ++ (render rest ++ [0])) := by
      simp [render]
    unfold split
    rw [hdup, e3]
    simp only [hs]
    rw [e1, e2, hl]
    simp [cooked, offsets, offsets_length]

/-- The tokens of a well-formed command line are the texts of its tokens. -/
theorem tokens_line (t0 : List Nat) (items : List (Nat × Tok)) (h0 : wordOk t0 = true)
    (hf : follows (Tok.word t0) items = true) (hn : items.length + 1 ≤ NUM_ARGS) :
    tokens (t0 ++ render items) = some (t0 :: items.map (fun p => p.2.text)) := by
  have hnz := follows_nonzero items (Tok.word t0) hf
  have hw := (wordOk_iff t0).1 h0
  have := argvOf_cooked (t0 :: items.map (fun p => p.2.text)) [] (by
    intro t ht
    simp only [List.mem_cons] at ht
    rcases ht with ht | ht
    · rw [ht]; exact fun b hb => (hw b hb).1
    · exact hnz.2 t ht)
  simp only [tokens, split_line t0 items h0 hf hn]
  simpa using this

theorem split_shape (cmd : List Nat) (s : Split) (h : split cmd = some s) :
    ∃ more, s.args = some 0 :: more ++ [none] ∧ s.i = more.length + 1 ∧
      more.length + 1 ≤ NUM_ARGS ∧ ∀ x ∈ more, x ≠ none := by
  unfold split at h
  split at h
  · simp at h
  · rename_i buf1 arg1 tok hs
    have ht := strsep_tok hs
    split at h
    · simp at h
    · rename_i buf arg args hl
      obtain ⟨more, h1, h2, h3⟩ := splitLoop_prefix _ _ _ _ _ _ _ hl
      simp only [Option.some.injEq] at h
      subst h
      refine ⟨more, by simp [h1, ht], by simp [h1], by simp only [NUM_ARGS] at h2 ⊢; omega, h3⟩

theorem split_terminated (cmd : List Nat) (s : Split) (h : split cmd = some s) :
    s.args.getD s.i none = none := by
  obtain ⟨more, h1, h2, -, -⟩ := split_shape cmd s h
  rw [h1, h2]
  have : (some 0 :: more ++ [none] : List Ptr) = (some 0 :: more) ++ [none] := by simp
  rw [this, List.getD_eq_getElem?_getD, List.getElem?_append_right (by simp)]
  simp

theorem argvOf_length : ∀ (ptrs : List Ptr) (buf : List Nat) (argv : List (List Nat)),
    (∀ x ∈ ptrs, x ≠ none) → argvOf buf (ptrs ++ [none]) = some argv →
    argv.length = ptrs.length := by
  intro ptrs
  induction ptrs with
  | nil => intro buf argv _ h; simp [argvOf] at h; simp [← h]
  | cons p ps ih =>
    intro buf argv hp h
    cases p with
    | none => exact absurd rfl (hp none (by simp))
    | some a =>
      rw [List.cons_append, argvOf_cons] at h
      split at h
      · rename_i s ss h1 h2
        simp only [Option.some.injEq] at h
        have := ih buf ss (fun x hx => hp x (by simp [hx])) h2
        simp [← h, this]
      · simp at h

/-! ## Lemmas on `run_parts` -/

theorem strcmp_total : ∀ a b : List Nat, strcmp a b ≤ 0 ∨ strcmp b a ≤ 0 := by
  intro a
  induction a with
  | nil => intro b; cases b <;> simp [strcmp]
  | cons x xs ih =>
    intro b
    cases b with
    | nil => simp [strcmp]
    | cons y ys =>
      simp only [strcmp]
      rcases Nat.lt_trichotomy x y with h | h | h
      · simp [h]
      · subst h; simpa using ih ys
      · have : ¬ x < y := by omega
        simp [h, this]

theorem strcmp_antisymm : ∀ a b : List Nat, strcmp a b ≤ 0 → strcmp b a ≤ 0 → a = b := by
  intro a
  induction a with
  | nil => intro b; cases b <;> simp [strcmp]
  | cons x xs ih =>
    intro b
    cases b with
    | nil => simp [strcmp]
    | cons y ys =>
      simp only [strcmp]
      rcases Nat.lt_trichotomy x y with h | h | h
      · have : ¬ y < x := by omega
        simp [h, this]
      · subst h
        simp only [Nat.lt_irrefl, if_false]
        intro h1 h2
        rw [ih ys h1 h2]
      · have : ¬ x < y := by omega
        simp [h, this]

theorem strcmp_trans : ∀ a b c : List Nat, strcmp a b ≤ 0 → strcmp b c ≤ 0 → strcmp a c ≤ 0 := by
  intro a
  induction a with
  | nil => intro b c; cases c <;> simp [strcmp]
  | cons x xs ih =>
    intro b c
    cases b with
    | nil => simp [strcmp]
    | cons y ys =>
      cases c with
      | nil => simp [strcmp]
      | cons z zs =>
        simp only [strcmp]
        rcases Nat.lt_trichotomy x y with h | h | h
        · rcases Nat.lt_trichotomy y z with h' | h' | h'
          · have : x < z := by omega
            simp [this]
          · subst h'; simp [h]
          · have : ¬ y < z := by omega
            simp [h', this]
        · subst h
          rcases Nat.lt_trichotomy x z with h' | h' | h'
          · simp [h']
          · subst h'; simpa using ih ys zs
          · have : ¬ x < z := by omega
            simp [h', this]
        · have : ¬ x < y := by omega
          simp [h, this]

instance alphasortTotal : IsTotal (List Nat) alphasort := ⟨strcmp_total⟩

instance alphasortTrans : IsTrans (List Nat) alphasort := ⟨strcmp_trans⟩

instance alphasortAntisymm : IsAntisymm (List Nat) alphasort := ⟨strcmp_antisymm⟩

/-- What `scandir` yields does not depend on the order of the listing. -/
theorem scandir_perm (l sorted : List (List Nat)) (hp : l.Perm sorted)
    (hs : List.Sorted alphasort sorted) : scandir (some l) = some sorted := by
  simp only [scandir, Option.map_some', Option.some.injEq]
  exact List.eq_of_perm_of_sorted ((List.perm_insertionSort alphasort l).trans hp)
    (List.sorted_insertionSort alphasort l) hs

theorem partArgs_expected (path name : List Nat) (cmd : Option (List Nat)) :
    partArgs path name cmd = (expectedArgv path name cmd).map some ++ [none] := by
  cases cmd with
  | some f => simp [partArgs, expectedArgv]
  | none =>
    rcases name with _ | ⟨a, _ | ⟨d, rest⟩⟩
    · simp [partArgs, expectedArgv]
    · by_cases h1 : a = 83
      · subst h1; simp [partArgs, expectedArgv, isdigit]
      · by_cases h2 : a = 75
        · subst h2; simp [partArgs, expectedArgv, isdigit]
        · simp [partArgs, expectedArgv, h1, h2]
    · by_cases h1 : a = 83
      · subst h1
        by_cases hd : 48 ≤ d ∧ d ≤ 57
        · simp [partArgs, expectedArgv, isdigit, hd]
        · simp only [not_and_or] at hd
          rcases hd with hd | hd <;> simp [partArgs, expectedArgv, isdigit, hd]
      · by_cases h2 : a = 75
        · subst h2
          by_cases hd : 48 ≤ d ∧ d ≤ 57
          · simp [partArgs, expectedArgv, isdigit, hd]
          · simp only [not_and_or] at hd
            rcases hd with hd | hd <;> simp [partArgs, expectedArgv, isdigit, hd]
        · simp [partArgs, expectedArgv, h1, h2]

theorem argvStrings_some (l : List (List Nat)) : argvStrings (l.map some ++ [none]) = l := by
  induction l with
  | nil => simp [argvStrings]
  | cons a l ih => simp [argvStrings, ih]

theorem actExecs_partChild (w : PWorld) (path : List Nat) (args : List (Option (List Nat))) :
    actExecs (partChild w path args) = [(path, argvStrings args)] := by
  cases h : w.execOk path <;> simp [partChild, actExecs, h]

/-- The `exec` calls of the loop of `run_parts` when every `fork` succeeds:
one per entry that passes the test of line 310, in the order of the entries,
with the vector of the specification. -/
theorem partsLoop_execs (w : PWorld) (dir : List Nat) (cmd : Option (List Nat))
    (hfork : ∀ k, (w.fork k).isSome = true) : ∀ (names : List (List Nat)) (k : Nat),
    execsOf (partsLoop w dir cmd names k)
      = (names.filter (runnable w dir)).map (fun name =>
          (partPath w.cmdSize dir name,
            expectedArgv (partPath w.cmdSize dir name) name cmd)) := by
  intro names
  induction names with
  | nil => intro k; simp [partsLoop, execsOf]
  | cons name rest ih =>
    intro k
    by_cases hr : runnable w dir name = true
    · obtain ⟨pid, hp⟩ := Option.isSome_iff_exists.1 (hfork k)
      have hr' := hr
      simp only [runnable, Bool.and_eq_true, Bool.not_eq_true'] at hr'
      simp only [partsLoop, hr'.1, hr'.2, Bool.not_true, Bool.or_self, Bool.false_eq_true,
        if_false, hp, execsOf, actExecs_partChild, partArgs_expected, argvStrings_some, ih,
        List.filter_cons, hr, if_true, List.map_cons, List.singleton_append]
    · have hr' : (!S_ISEXEC (w.fmode (partPath w.cmdSize dir name))
          || S_ISDIR (w.fmode (partPath w.cmdSize dir name))) = true := by
        simp only [runnable, Bool.and_eq_true, Bool.not_eq_true', not_and,
          Bool.not_eq_false] at hr
        cases h1 : S_ISEXEC (w.fmode (partPath w.cmdSize dir name))
        · simp
        · simp [hr h1]
      simp only [partsLoop, hr', if_true, ih, List.filter_cons, hr, Bool.false_eq_true, if_false]

/-! ## Lemmas on `run`, the replay loop and `run_getty` -/

/-- The overflow branch of `run` is never taken, so `run` is the rest of its
body. -/
theorem run_eq (w : World) (cmd : List Nat) (s : Split) (hd : w.strdupOk = true)
    (hs : split cmd = some s) :
    run w cmd =
      match w.fork with
      | none => some ⟨[Ev.forkFailed], -1, none⟩
      | some pid =>
        match argvOf s.buf s.args with
        | none => none
        | some [] => none
        | some (file :: rest) =>
          if complete w.wait = -1 then
            some ⟨[Ev.spawn pid (runChild w file (file :: rest)), Ev.waitpid pid], 1, none⟩
          else
            some ⟨[Ev.spawn pid (runChild w file (file :: rest)), Ev.waitpid pid],
              (exitResult (complete w.wait).toNat : Nat), none⟩ := by
  have ht := split_terminated cmd s hs
  simp only [run, hd, if_true, hs, ht, Option.isSome_none, Bool.false_eq_true, and_false, if_false]

theorem exitResult_exited (st : Nat) (h : WIFEXITED st = true) :
    exitResult st = WEXITSTATUS st := by
  simp [exitResult, h]

theorem exitResult_signaled (st : Nat) (h : WIFSIGNALED st = true) :
    exitResult st = (if WEXITSTATUS st = 0 then 1 else WEXITSTATUS st) ∧ exitResult st ≠ 0 := by
  have hne : WIFEXITED st = false := by
    simp only [WIFSIGNALED, decide_eq_true_eq] at h
    simp only [WIFEXITED, WTERMSIG, beq_eq_false_iff_ne, ne_eq]
    intro h0
    rw [h0] at h
    simp at h
  constructor
  · simp [exitResult, hne, h]
  · simp only [exitResult, hne, h, Bool.false_eq_true, if_false, if_true]
    split <;> omega

theorem joinWords_render : ∀ (rest : List (Nat × List Nat)) (t0 : List Nat),
    joinWords t0 rest = t0 ++ render (rest.map (fun p => (p.1, Tok.word p.2))) := by
  intro rest
  induction rest with
  | nil => intro t0; simp [joinWords, render]
  | cons p rest ih =>
    intro t0
    obtain ⟨s, t⟩ := p
    simp [joinWords, render, ih t, Tok.text]

theorem follows_words : ∀ (rest : List (Nat × List Nat)) (t0 : List Nat),
    (∀ p ∈ rest, (p.1 = 9 ∨ p.1 = 32) ∧ (∀ b ∈ p.2, b ≠ 0 ∧ b ≠ 9 ∧ b ≠ 32) ∧
      p.2.head? ≠ some 39 ∧ p.2.head? ≠ some 34) →
    follows (Tok.word t0) (rest.map (fun p => (p.1, Tok.word p.2))) = true := by
  intro rest
  induction rest with
  | nil => intro t0 _; simp [follows]
  | cons p rest ih =>
    intro t0 h
    obtain ⟨s, t⟩ := p
    obtain ⟨hs, hb, h39, h34⟩ := h (s, t) (by simp)
    have := ih t (fun x hx => h x (by simp [hx]))
    simp only [List.map_cons, follows, Tok.sepOk, Tok.ok, wordOk, this, Bool.and_true,
      Bool.and_eq_true, Bool.or_eq_true, beq_iff_eq, List.all_eq_true, bne_iff_ne, ne_eq]
    exact ⟨hs, ⟨fun b hb' => ⟨⟨(hb b hb').1, (hb b hb').2.1⟩, (hb b hb').2.2⟩, h39⟩, h34⟩

theorem fwrite_full (data : List Nat) (cap : Nat) (h : data.length ≤ cap) :
    fwrite data data.length 1 cap = (data, if data.length = 0 then 0 else 1) := by
  simp only [fwrite, Nat.mul_one, Nat.min_eq_left h, List.take_length]
  by_cases h0 : data.length = 0
  · simp [h0]
  · simp [h0, Nat.div_self (Nat.pos_of_ne_zero h0)]

theorem gettyRun_done (w : GWorld) (c t : Nat) : ∀ n,
    gettyRun w n ⟨Pc.done c, t⟩ = ([], ⟨Pc.done c, t⟩) := by
  intro n
  induction n with
  | zero => rfl
  | succ n ih => simp [gettyRun, gettyStep, ih]

theorem partPath_fits (cmdSize : Nat) (dir name : List Nat)
    (h : dir.length + 1 + name.length < cmdSize) :
    partPath cmdSize dir name = dir ++ 47 :: name := by
  apply List.take_of_length_le
  simp only [List.length_append, List.length_cons]
  omega

/-- The replay loop ends within `rest.length + 1` passes: a pass that goes on
has read at least one byte. -/
theorem replay_total (lineSize : Nat) (wr : Nat → Nat) : ∀ (fuel : Nat) (rest : List Nat)
    (k : Nat), rest.length < fuel → (replay lineSize wr fuel rest k).isSome = true := by
  intro fuel
  induction fuel with
  | zero => intro rest k h; omega
  | succ n ih =>
    intro rest k h
    rw [replay]
    simp only
    split
    · rename_i hc
      have hpos : 0 < (rest.take lineSize).length := hc.1
      have hlt : (rest.drop lineSize).length < n := by
        simp only [List.length_take, List.length_drop] at hpos ⊢
        omega
      have := ih (rest.drop lineSize) (k + 1) hlt
      simpa using this
    · rfl

/-! ## Lemmas on cutting a line at its separators -/

theorem cutAtSeps_join : ∀ cmd : List Nat,
    joinWords (cutAtSeps cmd).1 (cutAtSeps cmd).2 = cmd := by
  intro cmd
  induction cmd with
  | nil => rfl
  | cons c cs ih =>
    by_cases h : isSep c = true
    · simp [cutAtSeps, h, joinWords, ih]
    · simp only [cutAtSeps, h, Bool.false_eq_true, if_false]
      cases hr : (cutAtSeps cs).2 with
      | nil =>
        rw [hr] at ih
        simpa [joinWords] using ih
      | cons p rest =>
        rw [hr] at ih
        obtain ⟨s, t⟩ := p
        simpa [joinWords] using ih

theorem cutAtSeps_length : ∀ cmd : List Nat,
    (cutAtSeps cmd).2.length = cmd.countP isSep := by
  intro cmd
  induction cmd with
  | nil => rfl
  | cons c cs ih =>
    by_cases h : isSep c = true
    · simp [cutAtSeps, h, ih]
    · simp [cutAtSeps, h, ih]

/-- The words of `cutAtSeps` are made of bytes of the line that are no
separators, and the bytes it pairs them with are separators. -/
theorem cutAtSeps_words : ∀ cmd : List Nat,
    (∀ b ∈ (cutAtSeps cmd).1, b ∈ cmd ∧ isSep b = false) ∧
    ∀ p ∈ (cutAtSeps cmd).2, isSep p.1 = true ∧ ∀ b ∈ p.2, b ∈ cmd ∧ isSep b = false := by
  intro cmd
  induction cmd with
  | nil => simp [cutAtSeps]
  | cons c cs ih =>
    obtain ⟨ih1, ih2⟩ := ih
    by_cases h : isSep c = true
    · simp only [cutAtSeps, h, if_true]
      refine ⟨by simp, ?_⟩
      intro p hp
      simp only [List.mem_cons] at hp
      rcases hp with hp | hp
      · subst hp
        exact ⟨h, fun b hb => ⟨List.mem_cons_of_mem _ (ih1 b hb).1, (ih1 b hb).2⟩⟩
      · exact ⟨(ih2 p hp).1, fun b hb =>
          ⟨List.mem_cons_of_mem _ ((ih2 p hp).2 b hb).1, ((ih2 p hp).2 b hb).2⟩⟩
    · simp only [cutAtSeps, h, Bool.false_eq_true, if_false]
      constructor
      · intro b hb
        simp only [List.mem_cons] at hb
        rcases hb with hb | hb
        · subst hb; exact ⟨List.mem_cons_self _ _, by simpa using h⟩
        · exact ⟨List.mem_cons_of_mem _ (ih1 b hb).1, (ih1 b hb).2⟩
      · intro p hp
        exact ⟨(ih2 p hp).1, fun b hb =>
          ⟨List.mem_cons_of_mem _ ((ih2 p hp).2 b hb).1, ((ih2 p hp).2 b hb).2⟩⟩

/-- The empty command line is not held back by `run`: the process is
duplicated and the child calls `execvp` with the empty string as file and as
only argument. -/
theorem run_empty_line_execs :
    run ⟨true, some 7, true, true, some 0⟩ []
      = some ⟨[Ev.spawn 7 [Act.sigDefault, Act.nullStdio true, Act.sigUnblock,
                 Act.exec [] [[]]],
               Ev.waitpid 7], 0, none⟩ := by
  decide

/-! ## Lemmas on the argument vectors of `run` and `run_parts` -/

/-- A command line of sixteen tokens fills the vector: the process is
duplicated, the child hands all sixteen tokens to `execvp`, and `run` returns
the exit code of the child with no `errno` set. -/
theorem run_sixteen_tokens_forks :
    run ⟨true, some 7, true, true, some 0⟩ sixteenWords
      = some ⟨[Ev.spawn 7 [Act.sigDefault, Act.nullStdio true, Act.sigUnblock,
                 Act.exec (bytes "a") sixteenTokens],
               Ev.waitpid 7], 0, none⟩ ∧ sixteenTokens.length = 16 := by
  decide

/-- Whatever the command line and the answers of the system, the argument
vector a child of `run` hands to `execvp` holds at most `NUM_ARGS` = 16
tokens before its terminator. -/
theorem run_exec_at_most_NUM_ARGS (w : World) (cmd : List Nat) (r : Result) (pid : Nat)
    (child : List Act) (file : List Nat) (argv : List (List Nat))
    (hrun : run w cmd = some r) (hspawn : Ev.spawn pid child ∈ r.trace)
    (hexec : Act.exec file argv ∈ child) : argv.length ≤ NUM_ARGS := by
  by_cases hd : w.strdupOk = true
  · cases hs : split cmd with
    | none => simp [run, hd, hs] at hrun
    | some s =>
      rw [run_eq w cmd s hd hs] at hrun
      obtain ⟨more, h1, h2, h3, h4⟩ := split_shape cmd s hs
      cases hf : w.fork with
      | none =>
        simp only [hf, Option.some.injEq] at hrun
        subst hrun
        simp at hspawn
      | some p =>
        simp only [hf] at hrun
        cases ha : argvOf s.buf s.args with
        | none => simp [ha] at hrun
        | some av =>
          have hlen : av.length = (some 0 :: more).length := by
            apply argvOf_length (some 0 :: more) s.buf av
            · intro x hx
              simp only [List.mem_cons] at hx
              rcases hx with hx | hx
              · simp [hx]
              · exact h4 x hx
            · rw [← ha, h1]
          cases av with
          | nil => simp [ha] at hrun
          | cons f rest =>
            simp only [ha] at hrun
            have key : ∀ tr ret e, r = ⟨tr, ret, e⟩ →
                tr = [Ev.spawn p (runChild w f (f :: rest)), Ev.waitpid p] →
                argv.length ≤ NUM_ARGS := by
              intro tr ret e hr htr
              subst hr
              simp only [htr, List.mem_cons, Ev.spawn.injEq, List.mem_singleton, reduceCtorEq,
                or_false, List.not_mem_nil] at hspawn
              obtain ⟨-, hc⟩ := hspawn
              subst hc
              have : argv = f :: rest := by
                cases hx : w.execOk <;> simp_all [runChild]
              rw [this, hlen]
              simpa using h3
            split at hrun
            · simp only [Option.some.injEq] at hrun
              exact key _ _ _ hrun.symm rfl
            · simp only [Option.some.injEq] at hrun
              exact key _ _ _ hrun.symm rfl
  · simp only [run, hd, Bool.false_eq_true, if_false, Option.some.injEq] at hrun
    subst hrun
    simp at hspawn

/-- The bound on the vector at the command line of sixteen words. -/
theorem run_exec_at_most_NUM_ARGS_witness : sixteenTokens.length ≤ NUM_ARGS :=
  run_exec_at_most_NUM_ARGS ⟨true, some 7, true, true, some 0⟩ sixteenWords
    ⟨[Ev.spawn 7 [Act.sigDefault, Act.nullStdio true, Act.sigUnblock,
        Act.exec (bytes "a") sixteenTokens], Ev.waitpid 7], 0, none⟩
    7 [Act.sigDefault, Act.nullStdio true, Act.sigUnblock, Act.exec (bytes "a") sixteenTokens]
    (bytes "a") sixteenTokens (by decide) (by decide) (by decide)

/-- The overflow branch of `run` is dead: whatever the command line and the
answers of the system, `run` never prints the message of line 102 and never
sets `errno`. -/
theorem run_never_reports_overflow (w : World) (cmd : List Nat) (r : Result)
    (h : run w cmd = some r) : r.errno = none ∧ Ev.tooLong ∉ r.trace := by
  by_cases hd : w.strdupOk = true
  · cases hs : split cmd with
    | none => simp [run, hd, hs] at h
    | some s =>
      rw [run_eq w cmd s hd hs] at h
      cases hf : w.fork with
      | none =>
        simp only [hf, Option.some.injEq] at h
        subst h
        simp
      | some p =>
        simp only [hf] at h
        cases ha : argvOf s.buf s.args with
        | none => simp [ha] at h
        | some av =>
          cases av with
          | nil => simp [ha] at h
          | cons f rest =>
            simp only [ha] at h
            split at h <;> simp only [Option.some.injEq] at h <;> subst h <;> simp
  · simp only [run, hd, Bool.false_eq_true, if_false, Option.some.injEq] at h
    subst h
    simp

/-- The vector `run_parts` builds for an entry is the one the specification
describes, followed by `NULL`, with for `path` the first `CMD_SIZE - 1` bytes
of directory, slash and name, which is all of it when it is shorter than
`CMD_SIZE`; and when every `fork` succeeds the children of `run_parts` call
`execv` with exactly these vectors, one per entry that passes the test of
line 310, in sorted order. -/
theorem run_parts_argv (w : PWorld) (dir : List Nat) (cmd : Option (List Nat))
    (listing : List (List Nat)) (hlist : w.readdir dir = some listing)
    (hfork : ∀ k, (w.fork k).isSome = true) :
    (∀ name, partArgs (partPath w.cmdSize dir name) name cmd
        = (expectedArgv (partPath w.cmdSize dir name) name cmd).map some ++ [none]) ∧
    (∀ name, partPath w.cmdSize dir name = (dir ++ 47 :: name).take (w.cmdSize - 1)) ∧
    (∀ name, dir.length + 1 + name.length < w.cmdSize →
        partPath w.cmdSize dir name = dir ++ 47 :: name) ∧
    execsOf (run_parts w dir cmd).trace
      = ((List.insertionSort alphasort listing).filter (runnable w dir)).map (fun name =>
          (partPath w.cmdSize dir name,
            expectedArgv (partPath w.cmdSize dir name) name cmd)) := by
  refine ⟨fun name => partArgs_expected _ name cmd, fun _ => rfl,
    fun name h => partPath_fits _ _ _ h, ?_⟩
  simp only [run_parts, hlist, scandir, Option.map_some', partsLoop_execs w dir cmd hfork]

/-- The vectors of `run_parts` on the sample directory with the forced
argument `restart`. -/
theorem run_parts_argv_witness :
    (∀ name, partArgs (partPath sysvWorld.cmdSize (bytes "/etc/rc.d") name) name
          (some (bytes "restart"))
        = (expectedArgv (partPath sysvWorld.cmdSize (bytes "/etc/rc.d") name) name
            (some (bytes "restart"))).map some ++ [none]) ∧
    (∀ name, partPath sysvWorld.cmdSize (bytes "/etc/rc.d") name
        = (bytes "/etc/rc.d" ++ 47 :: name).take (sysvWorld.cmdSize - 1)) ∧
    (∀ name, (bytes "/etc/rc.d").length + 1 + name.length < sysvWorld.cmdSize →
        partPath sysvWorld.cmdSize (bytes "/etc/rc.d") name = bytes "/etc/rc.d" ++ 47 :: name) ∧
    execsOf (run_parts sysvWorld (bytes "/etc/rc.d") (some (bytes "restart"))).trace
      = ((List.insertionSort alphasort sysvListing).filter
          (runnable sysvWorld (bytes "/etc/rc.d"))).map (fun name =>
          (partPath sysvWorld.cmdSize (bytes "/etc/rc.d") name,
            expectedArgv (partPath sysvWorld.cmdSize (bytes "/etc/rc.d") name) name
              (some (bytes "restart")))) :=
  run_parts_argv sysvWorld (bytes "/etc/rc.d") (some (bytes "restart")) sysvListing rfl
    (fun _ => rfl)

/-- Whatever `CMD_SIZE` is, a directory and a name that together with the
slash have `CMD_SIZE` bytes or more do not fit: `path` is shorter than
directory, slash and name. -/
theorem partPath_cut (cmdSize : Nat) (dir name : List Nat)
    (h : cmdSize ≤ dir.length + 1 + name.length) :
    (partPath cmdSize dir name).length < (dir ++ 47 :: name).length ∧
      partPath cmdSize dir name ≠ dir ++ 47 :: name := by
  have hl : (partPath cmdSize dir name).length < (dir ++ 47 :: name).length := by
    simp only [partPath, List.length_take, List.length_append, List.length_cons]
    omega
  refine ⟨hl, ?_⟩
  intro he
  rw [he] at hl
  exact Nat.lt_irrefl _ hl

/-! ## Properties of the specification -/

/-- C1 (the defect): a command line of seventeen words is not rejected. The
test of line 101 reads `args[i]` just after line 95 has stored `NULL` there,
so it never holds: the process is duplicated, `execvp` gets the first sixteen
words, the seventeenth is lost, and `run` returns the exit code of the child
with no `errno` set. -/
theorem run_seventeen_words_truncated :
    run ⟨true, some 7, true, true, some 0⟩ (sixteenWords ++ bytes " q")
      = some ⟨[Ev.spawn 7 [Act.sigDefault, Act.nullStdio true, Act.sigUnblock,
                 Act.exec (bytes "a") sixteenTokens],
               Ev.waitpid 7], 0, none⟩ := by
  decide

/-- C2 (counterexample): for the command line of the comment in `run`, the
third token is the text with both double quotes (byte 34) still around it,
not the text between them. -/
theorem quoted_token_counterexample :
    tokens (bytes "su -c " ++ 34 :: (bytes "dbus-daemon --system" ++ 34 :: bytes " messagebus"))
      = some [bytes "su", bytes "-c", 34 :: (bytes "dbus-daemon --system" ++ [34]),
          bytes "messagebus"] ∧
    tokens (bytes "su -c " ++ 34 :: (bytes "dbus-daemon --system" ++ 34 :: bytes " messagebus"))
      ≠ some [bytes "su", bytes "-c", bytes "dbus-daemon --system", bytes "messagebus"] := by
  decide

/-- C2 (amended): in a well-formed command line of at most `NUM_ARGS` tokens,
a token that begins with a single or double quote and has a matching closing
quote, followed by one more byte, comes out as one token made of the opening
quote, the body and the closing quote; white space in the body does not
split it. -/
theorem quoted_token_keeps_quotes (t0 : List Nat) (items : List (Nat × Tok)) (j s q : Nat)
    (body : List Nat) (h0 : wordOk t0 = true) (hf : follows (Tok.word t0) items = true)
    (hn : items.length + 1 ≤ NUM_ARGS) (hj : items.get? j = some (s, Tok.quoted q body)) :
    ∃ toks, tokens (t0 ++ render items) = some toks ∧ toks.length = items.length + 1 ∧
      toks.get? (j + 1) = some (q :: (body ++ [q])) := by
  refine ⟨t0 :: items.map (fun p => p.2.text), tokens_line t0 items h0 hf hn, by simp, ?_⟩
  rw [List.get?_eq_getElem?] at hj ⊢
  simp only [List.getElem?_cons_succ, List.getElem?_map, hj]
  rfl

/-- C2 (witness): the command line of the comment in `run`. -/
theorem quoted_token_keeps_quotes_witness :
    ∃ toks, tokens (bytes "su" ++ render [(32, Tok.word (bytes "-c")),
        (32, Tok.quoted 34 (bytes "dbus-daemon --system")), (32, Tok.word (bytes "messagebus"))])
          = some toks ∧ toks.length = 3 + 1 ∧
      toks.get? (1 + 1) = some (34 :: (bytes "dbus-daemon --system" ++ [34])) :=
  quoted_token_keeps_quotes (bytes "su") [(32, Tok.word (bytes "-c")),
      (32, Tok.quoted 34 (bytes "dbus-daemon --system")), (32, Tok.word (bytes "messagebus"))]
    1 32 34 (bytes "dbus-daemon --system") (by decide) (by decide) (by decide) (by decide)

/-- C3: when the process was duplicated and `complete` returned the wait
status `st`, `run` returns the exit code for a status of a normal exit (so
exactly `c` for the status of `exit(c)`, zero included), and for a status of
a death by signal the exit-code byte when that is not zero and 1 otherwise,
never 0. -/
theorem run_result_of_status (w : World) (cmd : List Nat) (pid st : Nat)
    (hd : w.strdupOk = true) (htok : (tokens cmd).isSome = true) (hfork : w.fork = some pid)
    (hwait : w.wait = some st) :
    ∃ r, run w cmd = some r ∧
      (WIFEXITED st = true → r.ret = WEXITSTATUS st) ∧
      (∀ c : Nat, c < 256 → st = 256 * c → r.ret = c) ∧
      (WIFSIGNALED st = true →
        r.ret = (if WEXITSTATUS st = 0 then 1 else WEXITSTATUS st) ∧ r.ret ≠ 0) := by
  cases hs : split cmd with
  | none => simp [tokens, hs] at htok
  | some s =>
    obtain ⟨more, h1, -, -, -⟩ := split_shape cmd s hs
    cases ha : argvOf s.buf s.args with
    | none => simp [tokens, hs, ha] at htok
    | some av =>
      cases av with
      | nil =>
        rw [h1, List.cons_append, argvOf_cons] at ha
        split at ha <;> simp at ha
      | cons file rest =>
        have hc : complete w.wait = (st : Int) := by simp [complete, hwait]
        have hne : ¬ ((st : Int) = -1) := by omega
        refine ⟨⟨[Ev.spawn pid (runChild w file (file :: rest)), Ev.waitpid pid],
          (exitResult st : Nat), none⟩, ?_, ?_, ?_, ?_⟩
        · rw [run_eq w cmd s hd hs]
          simp only [hfork, ha, hc, hne, if_false, Int.toNat_ofNat]
        · intro h
          simp [exitResult_exited st h]
        · intro c hc256 hst
          have h : WIFEXITED st = true := by
            simp only [WIFEXITED, WTERMSIG, beq_iff_eq]; omega
          have h2 : WEXITSTATUS st = c := by simp only [WEXITSTATUS]; omega
          simp [exitResult_exited st h, h2]
        · intro h
          obtain ⟨e1, e2⟩ := exitResult_signaled st h
          refine ⟨?_, ?_⟩
          · rw [e1]
          · simpa using e2

/-- C3 (witness): `true` run in a child that is killed by signal 9. -/
theorem run_result_of_status_witness :
    ∃ r, run ⟨true, some 7, true, true, some 9⟩ (bytes "true") = some r ∧
      (WIFEXITED 9 = true → r.ret = WEXITSTATUS 9) ∧
      (∀ c : Nat, c < 256 → 9 = 256 * c → r.ret = c) ∧
      (WIFSIGNALED 9 = true →
        r.ret = (if WEXITSTATUS 9 = 0 then 1 else WEXITSTATUS 9) ∧ r.ret ≠ 0) :=
  run_result_of_status ⟨true, some 7, true, true, some 9⟩ (bytes "true") 7 9
    (by decide) (by decide) (by decide) (by decide)

/-- C4 (the defect): with `LINE_SIZE` at least 2, a sink longer than
`LINE_SIZE` and an error stream that takes every write in full, the replay
loop stops after its first pass: `fwrite` returns the item count 1, the test
`written == len` compares it with `len` = `LINE_SIZE`, and only the first
`LINE_SIZE` bytes of the sink reach the error stream. -/
theorem replay_stops_after_first_chunk (lineSize : Nat) (wr : Nat → Nat) (sink : List Nat)
    (h2 : 2 ≤ lineSize) (hlong : lineSize < sink.length) (hwr : ∀ k, lineSize ≤ wr k) :
    replayed lineSize wr sink = some (sink.take lineSize) ∧
      replayed lineSize wr sink ≠ some sink := by
  have hlen : (sink.take lineSize).length = lineSize := by
    simp [List.length_take]; omega
  have hfw := fwrite_full (sink.take lineSize) (wr 0) (by rw [hlen]; exact hwr 0)
  rw [hlen] at hfw
  have h0 : ¬ lineSize = 0 := by omega
  have h1 : ¬ (1 = lineSize) := by omega
  have key : replayed lineSize wr sink = some (sink.take lineSize) := by
    simp only [replayed, replay, hfw, hlen, h0, if_false, h1, and_false, Option.map_some',
      List.flatten_cons, List.flatten_nil, List.append_nil]
  refine ⟨key, ?_⟩
  rw [key]
  intro h
  have := congrArg List.length (Option.some.inj h)
  rw [hlen] at this
  omega

/-- C4 (witness): `LINE_SIZE` 4 and a sink of five bytes. -/
theorem replay_stops_after_first_chunk_witness :
    replayed 4 (fun _ => 4) [1, 2, 3, 4, 5] = some ([1, 2, 3, 4, 5].take 4) ∧
      replayed 4 (fun _ => 4) [1, 2, 3, 4, 5] ≠ some [1, 2, 3, 4, 5] :=
  replay_stops_after_first_chunk 4 (fun _ => 4) [1, 2, 3, 4, 5] (by decide) (by decide)
    (fun _ => Nat.le_refl 4)

/-- C5 (counterexample): on the sample directory `run_parts` calls `K01third`
first, not `S01first`. -/
theorem run_parts_sample_order :
    execsOf (run_parts sysvWorld (bytes "/etc/rc.d") none).trace
      = [(bytes "/etc/rc.d/K01third", [bytes "/etc/rc.d/K01third", bytes "stop"]),
         (bytes "/etc/rc.d/S01first", [bytes "/etc/rc.d/S01first", bytes "start"]),
         (bytes "/etc/rc.d/S02second", [bytes "/etc/rc.d/S02second", bytes "start"])] ∧
    execsOf (run_parts sysvWorld (bytes "/etc/rc.d") none).trace
      ≠ [(bytes "/etc/rc.d/S01first", [bytes "/etc/rc.d/S01first", bytes "start"]),
         (bytes "/etc/rc.d/S02second", [bytes "/etc/rc.d/S02second", bytes "start"]),
         (bytes "/etc/rc.d/K01third", [bytes "/etc/rc.d/K01third", bytes "stop"])] := by
  decide

/-- C5 (amended): for a directory whose listing holds, in any order, `.`,
`..`, `S01first`, `S02second`, `readme.txt` and `K01third`, the three scripts
executable regular files, `readme.txt` not executable, and the path of the
directory short enough for every entry to fit the `CMD_SIZE` buffer,
`run_parts` without forced argument makes exactly three calls, in the byte
order of the names: `K01third stop`, `S01first start`, `S02second start`; it
returns 0. -/
theorem run_parts_sysv_order (w : PWorld) (dir : List Nat) (listing : List (List Nat))
    (hlist : w.readdir dir = some listing) (hperm : listing.Perm sysvListing)
    (hfit : dir.length + 11 < w.cmdSize)
    (hS1 : runnable w dir (bytes "S01first") = true)
    (hS2 : runnable w dir (bytes "S02second") = true)
    (hK1 : runnable w dir (bytes "K01third") = true)
    (hreadme : S_ISEXEC (w.fmode (dir ++ 47 :: bytes "readme.txt")) = false)
    (hdot : S_ISDIR (w.fmode (dir ++ 47 :: bytes ".")) = true)
    (hdotdot : S_ISDIR (w.fmode (dir ++ 47 :: bytes "..")) = true)
    (hfork : ∀ k, (w.fork k).isSome = true) :
    execsOf (run_parts w dir none).trace
      = [(dir ++ 47 :: bytes "K01third", [dir ++ 47 :: bytes "K01third", bytes "stop"]),
         (dir ++ 47 :: bytes "S01first", [dir ++ 47 :: bytes "S01first", bytes "start"]),
         (dir ++ 47 :: bytes "S02second", [dir ++ 47 :: bytes "S02second", bytes "start"])] ∧
    (run_parts w dir none).ret = 0 := by
  have hsorted : scandir (some listing)
      = some [bytes ".", bytes "..", bytes "K01third", bytes "S01first", bytes "S02second",
          bytes "readme.txt"] := by
    apply scandir_perm
    · exact hperm.trans (by decide)
    · decide
  have p1 := partPath_fits w.cmdSize dir (bytes ".") (by simp [bytes]; omega)
  have p2 := partPath_fits w.cmdSize dir (bytes "..") (by simp [bytes]; omega)
  have p3 := partPath_fits w.cmdSize dir (bytes "K01third") (by simp [bytes]; omega)
  have p4 := partPath_fits w.cmdSize dir (bytes "S01first") (by simp [bytes]; omega)
  have p5 := partPath_fits w.cmdSize dir (bytes "S02second") (by simp [bytes]; omega)
  have p6 := partPath_fits w.cmdSize dir (bytes "readme.txt") (by simp [bytes]; omega)
  have r1 : runnable w dir (bytes ".") = false := by simp [runnable, p1, hdot]
  have r2 : runnable w dir (bytes "..") = false := by simp [runnable, p2, hdotdot]
  have r6 : runnable w dir (bytes "readme.txt") = false := by simp [runnable, p6, hreadme]
  simp only [run_parts, hlist, hsorted, partsLoop_execs w dir none hfork, List.filter_cons,
    List.filter_nil, r1, r2, r6, hK1, hS1, hS2, if_true, Bool.false_eq_true, if_false,
    List.map_cons, List.map_nil, p3, p4, p5, and_true]
  rfl

/-- C5 (witness): the sample directory `/etc/rc.d`. -/
theorem run_parts_sysv_order_witness :
    execsOf (run_parts sysvWorld (bytes "/etc/rc.d") none).trace
      = [(bytes "/etc/rc.d" ++ 47 :: bytes "K01third",
            [bytes "/etc/rc.d" ++ 47 :: bytes "K01third", bytes "stop"]),
         (bytes "/etc/rc.d" ++ 47 :: bytes "S01first",
            [bytes "/etc/rc.d" ++ 47 :: bytes "S01first", bytes "start"]),
         (bytes "/etc/rc.d" ++ 47 :: bytes "S02second",
            [bytes "/etc/rc.d" ++ 47 :: bytes "S02second", bytes "start"])] ∧
    (run_parts sysvWorld (bytes "/etc/rc.d") none).ret = 0 :=
  run_parts_sysv_order sysvWorld (bytes "/etc/rc.d") sysvListing rfl (List.Perm.refl _)
    (by decide) (by decide) (by decide) (by decide) (by decide) (by decide) (by decide)
    (fun _ => rfl)

set_option maxRecDepth 100000 in
/-- C6 (the defect): with `CMD_SIZE` 256 and a directory path of 300 bytes
(thirty components of nine bytes), `snprintf` keeps 255 bytes of directory,
slash and name, and `run_parts` tests and runs that other path. The entry
`S01a` is an executable regular file, yet the vector handed to `execv` begins
with the cut path `deepCut`, not with directory, slash and `S01a`; and when
no file stands at the cut path the entry is not run at all. -/
theorem run_parts_cuts_long_path :
    execsOf (run_parts deepDirWorld deepDir none).trace
      = [(deepCut, [deepCut, bytes "start"])] ∧
    deepCut ≠ deepDir ++ 47 :: bytes "S01a" ∧
    runnable deepDirAloneWorld deepDir (bytes "S01a") = false ∧
    S_ISEXEC (deepDirAloneWorld.fmode (deepDir ++ 47 :: bytes "S01a")) = true ∧
    S_ISDIR (deepDirAloneWorld.fmode (deepDir ++ 47 :: bytes "S01a")) = false ∧
    execsOf (run_parts deepDirAloneWorld deepDir none).trace = [] := by
  decide

/-- C7: for a first token and up to fifteen further tokens, none holding NUL,
tab or space and none after the first beginning with a quote character,
joined by one tab or space each, lines 72-95 of `run` leave exactly these
tokens in `args`, in order, followed by the `NULL` terminator. The bound
proved is `NUM_ARGS` = 16 tokens, which covers the lists of 1 to 15. -/
theorem tokens_of_joined_words (t0 : List Nat) (rest : List (Nat × List Nat))
    (h0 : ∀ b ∈ t0, b ≠ 0 ∧ b ≠ 9 ∧ b ≠ 32)
    (hrest : ∀ p ∈ rest, (p.1 = 9 ∨ p.1 = 32) ∧ (∀ b ∈ p.2, b ≠ 0 ∧ b ≠ 9 ∧ b ≠ 32) ∧
      p.2.head? ≠ some 39 ∧ p.2.head? ≠ some 34)
    (hn : rest.length + 1 ≤ NUM_ARGS) :
    tokens (joinWords t0 rest) = some (t0 :: rest.map Prod.snd) ∧
    ∃ s, split (joinWords t0 rest) = some s ∧ s.i = rest.length + 1 ∧
      s.args.length = s.i + 1 ∧ s.args.getD s.i (some 0) = none := by
  have hw : wordOk t0 = true := by
    simp only [wordOk, List.all_eq_true, Bool.and_eq_true, bne_iff_ne, ne_eq]
    exact fun b hb => ⟨⟨(h0 b hb).1, (h0 b hb).2.1⟩, (h0 b hb).2.2⟩
  have hf := follows_words rest t0 hrest
  have hn' : (rest.map (fun p => (p.1, Tok.word p.2))).length + 1 ≤ NUM_ARGS := by simpa using hn
  have e : (rest.map (fun p => (p.1, Tok.word p.2))).map (fun p => p.2.text)
      = rest.map Prod.snd := by
    simp [List.map_map, Function.comp_def, Tok.text]
  constructor
  · rw [joinWords_render, tokens_line t0 _ hw hf hn', e]
  · rw [joinWords_render, split_line t0 _ hw hf hn', e]
    refine ⟨_, rfl, by simp, by simp [offsets, offsets_length], ?_⟩
    rw [List.getD_eq_getElem?_getD, List.getElem?_append_right (by simp [offsets, offsets_length])]
    simp [offsets, offsets_length]

/-- C7 (witness): three words joined by a space and a tab. -/
theorem tokens_of_joined_words_witness :
    tokens (joinWords (bytes "mount") [(32, bytes "-na"), (9, bytes "/")])
      = some (bytes "mount" :: [(32, bytes "-na"), (9, bytes "/")].map Prod.snd) ∧
    ∃ s, split (joinWords (bytes "mount") [(32, bytes "-na"), (9, bytes "/")]) = some s ∧
      s.i = [(32, bytes "-na"), (9, bytes "/")].length + 1 ∧
      s.args.length = s.i + 1 ∧ s.args.getD s.i (some 0) = none :=
  tokens_of_joined_words (bytes "mount") [(32, bytes "-na"), (9, bytes "/")]
    (by decide) (by decide) (by decide)

/-- C8 (the defect): when `execv` fails, the child of `run_parts` calls
`exit(0)`, the status of success, where the child of `run` calls `_exit(1)`. -/
theorem run_parts_child_exits_zero :
    run_parts failingExecWorld (bytes "/etc/rc.d") none
      = ⟨[Ev.spawn 7 [Act.sigUnblock,
            Act.exec (bytes "/etc/rc.d/S01a") [bytes "/etc/rc.d/S01a", bytes "start"],
            Act.exit 0],
          Ev.waitpid 7], 0, none⟩ ∧
    run ⟨true, some 7, true, false, some 256⟩ (bytes "/etc/rc.d/S01a start")
      = some ⟨[Ev.spawn 7 [Act.sigDefault, Act.nullStdio true, Act.sigUnblock,
            Act.exec (bytes "/etc/rc.d/S01a") [bytes "/etc/rc.d/S01a", bytes "start"],
            Act.exit 1],
          Ev.waitpid 7], 1, none⟩ := by
  decide

/-- C9: from a test of the loop condition at which the shutdown marker
exists, the process forked by `run_getty` leaves the loop and calls `exit(0)`;
however many steps are observed after the two that takes, all it has done
since the test is close the console (when it had opened it) and exit: it
never calls `execv`. -/
theorem getty_shutdown_exits (w : GWorld) (t n : Nat) (h : w.shutdown t = true) :
    gettyRun w (n + 2) ⟨Pc.cond, t⟩
        = ((if w.console then [GEv.close] else []) ++ [GEv.exit 0], ⟨Pc.done 0, t + 2⟩) ∧
      ∀ m ok, GEv.execv ok ∉ (gettyRun w m ⟨Pc.cond, t⟩).1 := by
  have key : ∀ k, gettyRun w (k + 2) ⟨Pc.cond, t⟩
      = ((if w.console then [GEv.close] else []) ++ [GEv.exit 0], ⟨Pc.done 0, t + 2⟩) := by
    intro k
    cases hc : w.console <;> simp [gettyRun, gettyStep, h, hc, gettyRun_done]
  refine ⟨key n, ?_⟩
  intro m ok
  match m with
  | 0 => simp [gettyRun]
  | 1 => simp [gettyRun, gettyStep, h]
  | k + 2 =>
    rw [key k]
    cases hc : w.console <;> simp

/-- C9 (witness): the marker exists at the very first test, console attached. -/
theorem getty_shutdown_exits_witness :
    gettyRun ⟨true, 0, true, fun _ => true, fun _ => false, fun _ => none, fun _ => true⟩
        (3 + 2) ⟨Pc.cond, 1⟩
        = ((if true then [GEv.close] else []) ++ [GEv.exit 0], ⟨Pc.done 0, 1 + 2⟩) ∧
      ∀ m ok, GEv.execv ok ∉
        (gettyRun ⟨true, 0, true, fun _ => true, fun _ => false, fun _ => none, fun _ => true⟩
          m ⟨Pc.cond, 1⟩).1 :=
  getty_shutdown_exits
    ⟨true, 0, true, fun _ => true, fun _ => false, fun _ => none, fun _ => true⟩ 1 3 rfl

/-- C10: as long as, iteration after iteration, the shutdown marker is absent
at the loop condition and the stopped marker exists at the first check, the
process forked by `run_getty` does nothing but sleep one second per iteration
and come back to the loop condition: after `k` such iterations its actions
are `k` sleeps, with no prompt, no read and no `execv`. -/
theorem getty_stopped_idles (w : GWorld) (k t : Nat)
    (h : ∀ j, j < k → w.shutdown (t + 2 * j) = false ∧ w.stopped (t + 2 * j + 1) = true) :
    gettyRun w (2 * k) ⟨Pc.cond, t⟩ = (List.replicate k (GEv.sleep 1), ⟨Pc.cond, t + 2 * k⟩) := by
  induction k generalizing t with
  | zero => rfl
  | succ k ih =>
    have h0 := h 0 (by omega)
    simp only [Nat.mul_zero, Nat.add_zero] at h0
    have hk := ih (t + 2) (by
      intro j hj
      have := h (j + 1) (by omega)
      have e : t + 2 * (j + 1) = t + 2 + 2 * j := by omega
      rw [e] at this
      exact this)
    have e : 2 * (k + 1) = 2 * k + 1 + 1 := by omega
    have e2 : t + 1 + 1 = t + 2 := by omega
    have e3 : t + 2 + 2 * k = t + (2 * k + 1 + 1) := by omega
    rw [e]
    simp only [gettyRun, gettyStep, h0.1, h0.2, Bool.false_eq_true, if_false, if_true, e2, hk,
      List.nil_append, List.singleton_append, List.replicate_succ, e3]

/-- C10 (witness): two iterations with the stopped marker present. -/
theorem getty_stopped_idles_witness :
    gettyRun ⟨true, 0, true, fun _ => false, fun _ => true, fun _ => none, fun _ => true⟩
        (2 * 2) ⟨Pc.cond, 1⟩
      = (List.replicate 2 (GEv.sleep 1), ⟨Pc.cond, 1 + 2 * 2⟩) :=
  getty_stopped_idles
    ⟨true, 0, true, fun _ => false, fun _ => true, fun _ => none, fun _ => true⟩ 2 1
    (fun _ _ => ⟨rfl, rfl⟩)

/-- C11 (counterexample): for the empty command line the vector does not
hold zero tokens, and its first entry is not the terminator. -/
theorem empty_line_counterexample :
    tokens [] ≠ some [] ∧ (split []).map (fun s => s.args.head?) ≠ some (some none) := by
  decide

/-- C11 (amended): for the empty command line the tokenizer of `run` yields a
vector with exactly one token before the terminator, the empty string:
`args[0]` points at the NUL of the copy, `args[1]` is `NULL` and `i` is 1. -/
theorem empty_line_one_empty_token :
    split [] = some ⟨[0], none, 1, [some 0, none]⟩ ∧ tokens [] = some [[]] := by
  decide

/-- C12: a command line without NUL and without quote character that holds
at most 15 tabs and spaces is cut at every one of them: the tokens of `run`
are its fields, one more than there are separators, none holding a
separator, and joined again with the separators they give back the line, so
that no two separators count as one and a separator at either end leaves an
empty token there. -/
theorem tokens_cut_at_every_separator (cmd : List Nat) (h0 : ∀ b ∈ cmd, b ≠ 0)
    (hq : ∀ b ∈ cmd, b ≠ 39 ∧ b ≠ 34) (hn : cmd.countP isSep ≤ 15) :
    tokens cmd = some (fields cmd) ∧
    (fields cmd).length = cmd.countP isSep + 1 ∧
    joinWords (cutAtSeps cmd).1 (cutAtSeps cmd).2 = cmd ∧
    ∀ t ∈ fields cmd, ∀ b ∈ t, isSep b = false := by
  obtain ⟨hw1, hw2⟩ := cutAtSeps_words cmd
  have sep_false : ∀ b, isSep b = false → b ≠ 9 ∧ b ≠ 32 := by
    intro b hb
    simpa [isSep] using hb
  have hword : wordOk (cutAtSeps cmd).1 = true := by
    simp only [wordOk, List.all_eq_true, Bool.and_eq_true, bne_iff_ne, ne_eq]
    intro b hb
    have := hw1 b hb
    exact ⟨⟨h0 b this.1, (sep_false b this.2).1⟩, (sep_false b this.2).2⟩
  have hf := follows_words (cutAtSeps cmd).2 (cutAtSeps cmd).1 (by
    intro p hp
    obtain ⟨hs, hb⟩ := hw2 p hp
    refine ⟨by simpa [isSep] using hs, ?_, ?_, ?_⟩
    · intro b hb'
      have := hb b hb'
      exact ⟨h0 b this.1, (sep_false b this.2).1, (sep_false b this.2).2⟩
    · intro h
      have hm := List.mem_of_mem_head? (Option.mem_def.2 h)
      exact (hq 39 (hb 39 hm).1).1 rfl
    · intro h
      have hm := List.mem_of_mem_head? (Option.mem_def.2 h)
      exact (hq 34 (hb 34 hm).1).2 rfl)
  have hlen := cutAtSeps_length cmd
  have hn' : ((cutAtSeps cmd).2.map (fun p => (p.1, Tok.word p.2))).length + 1 ≤ NUM_ARGS := by
    simp only [List.length_map, hlen, NUM_ARGS]
    omega
  have key := tokens_line (cutAtSeps cmd).1 _ hword hf hn'
  rw [← joinWords_render, cutAtSeps_join] at key
  refine ⟨?_, by simp [fields, hlen], cutAtSeps_join cmd, ?_⟩
  · rw [key]
    simp [fields, List.map_map, Function.comp_def, Tok.text]
  · intro t ht b hb
    simp only [fields, List.mem_cons, List.mem_map] at ht
    rcases ht with ht | ⟨p, hp, hpt⟩
    · subst ht; exact (hw1 b hb).2
    · subst hpt; exact ((hw2 p hp).2 b hb).2

/-- C12 (witness): two spaces in a row enclose an empty token. -/
theorem tokens_cut_at_every_separator_witness :
    tokens (bytes "a  b") = some [bytes "a", [], bytes "b"] ∧
    [bytes "a", [], bytes "b"].length = (bytes "a  b").countP isSep + 1 ∧
    joinWords (cutAtSeps (bytes "a  b")).1 (cutAtSeps (bytes "a  b")).2 = bytes "a  b" ∧
    ∀ t ∈ fields (bytes "a  b"), ∀ b ∈ t, isSep b = false :=
  tokens_cut_at_every_separator (bytes "a  b") (by decide) (by decide) (by decide)

end Finit
